import Mathlib

/-!
Shallow embedding of the core of `wyag` (a content-addressed version-control
storage engine, `src/objects.py`, `src/index.py`, `src/repo.py`) and proofs
about the claims of its specification.

Modelling conventions, used throughout:
* Python `bytes` values are modelled as `List Nat` (`Bytes`), one byte per
  element.  All reachable byte values are `< 256`.
* Python `str` values that the source only compares, slices, concatenates and
  encodes/decodes as UTF-8 are also modelled as `Bytes` (their UTF-8
  encoding); `encode("utf8")`/`decode("utf8")` are therefore identities, with
  `decode` additionally failing on invalid UTF-8 (modelled by `isValidUtf8`).
  Python's lexicographic comparison of `str` by code point coincides with
  byte-wise lexicographic comparison of the UTF-8 encodings.
* `zlib.compress`/`zlib.decompress` form a bijection inverted on every read,
  so the object store maps a digest directly to the decompressed bytes.
* The SHA-1 function itself is not re-implemented: models that hash are
  parameterised by an abstract `h : Bytes → Nat` giving the 160-bit digest
  value of the framed bytes.  `hashlib.sha1(x).hexdigest()` is then
  `hexRender40 (h x)`.
* Python's stable sorts (`list.sort(key=...)`, `sorted(key=..., reverse=True)`)
  are modelled by `List.insertionSort` with the corresponding total preorder;
  both compute the unique stable sorted permutation.
-/

/-- A Python `bytes` value: a list of byte values. -/
abbrev Bytes := List Nat

/-- UTF-8 bytes of an ASCII string literal (every source literal is ASCII). -/
def s2b (s : String) : Bytes := s.data.map Char.toNat

/-- `int.from_bytes(l, "big")`. -/
def bytesToNatBE (l : Bytes) : Nat := l.foldl (fun acc b => acc * 256 + b) 0

/-- `v.to_bytes(n, "big")`.  Faithful for `v < 256^n`; Python raises
`OverflowError` above that bound, which no reachable call does. -/
def natToBytesBE : Nat → Nat → Bytes
  | 0, _ => []
  | n + 1, v => natToBytesBE n (v / 256) ++ [v % 256]

/-- Decimal digits, most significant first (ASCII); fuel-based so that the
kernel can evaluate it (`v ≤ fuel` always holds at the call sites). -/
def natDigitsF : Nat → Nat → Bytes
  | 0, _ => []
  | f + 1, v => if v = 0 then [] else natDigitsF f (v / 10) ++ [48 + v % 10]

/-- Decimal digits of a positive number, most significant first (ASCII). -/
def natDigits (n : Nat) : Bytes := natDigitsF n n

/-- `str(n).encode("ascii")` for a natural number `n`. -/
def natDecimal (n : Nat) : Bytes := if n = 0 then [48] else natDigits n

/-- Model of `int(b.decode("ascii"))` on the slices the source takes: any
leading ASCII spaces are stripped, then a non-empty run of decimal digits is
required.  (Python's `int` is more lenient — signs, underscores, other
whitespace — but every reachable slice is spaces followed by digits.) -/
def decDigitsVal (l : Bytes) : Nat :=
  l.foldl (fun acc c => acc * 10 + (c - 48)) 0

def pyParseNat (b : Bytes) : Option Nat :=
  let t := b.dropWhile (· = 32)
  if t ≠ [] ∧ t.all (fun c => 48 ≤ c ∧ c ≤ 57) then some (decDigitsVal t)
  else none

/-- Value of one ASCII hex digit.  Python's `int(s, 16)` raises on other
characters; every reachable character is a hex digit. -/
def hexDigitVal (c : Nat) : Nat :=
  if 48 ≤ c ∧ c ≤ 57 then c - 48
  else if 97 ≤ c ∧ c ≤ 102 then c - 87
  else if 65 ≤ c ∧ c ≤ 70 then c - 55
  else 0

/-- `int(s, 16)` on a string of hex digits. -/
def hexVal (b : Bytes) : Nat := b.foldl (fun acc c => acc * 16 + hexDigitVal c) 0

/-- Lower-case ASCII hex digit for a value `< 16`. -/
def hexDigitChar (d : Nat) : Nat := if d < 10 then 48 + d else 87 + d

/-- Hex digits, most significant first, lower case; fuel-based so that the
kernel can evaluate it (`v ≤ fuel` always holds at the call sites). -/
def hexDigitsF : Nat → Nat → Bytes
  | 0, _ => []
  | f + 1, v => if v = 0 then [] else hexDigitsF f (v / 16) ++ [hexDigitChar (v % 16)]

/-- Hex digits of a positive number, most significant first, lower case. -/
def hexDigits (n : Nat) : Bytes := hexDigitsF n n

/-- `format(n, "040x")`: lower-case hex, left-padded with zeros to at least
40 characters. -/
def hexRender40 (n : Nat) : Bytes :=
  let ds := if n = 0 then [48] else hexDigits n
  List.replicate (40 - ds.length) 48 ++ ds

/-- Whether a byte is an ASCII hex digit (the regex class `[0-9A-Fa-f]`). -/
def isHexByte (c : Nat) : Bool :=
  (48 ≤ c ∧ c ≤ 57) ∨ (97 ≤ c ∧ c ≤ 102) ∨ (65 ≤ c ∧ c ≤ 70)

/-- `str.lower()` on ASCII bytes. -/
def byteLower (c : Nat) : Nat := if 65 ≤ c ∧ c ≤ 90 then c + 32 else c

/-- Python `str.strip()` whitespace set (ASCII part; names are ASCII). -/
def isSpaceByte (c : Nat) : Bool := c = 32 ∨ c = 9 ∨ c = 10 ∨ c = 13 ∨ c = 11 ∨ c = 12

/-- `s.strip()`. -/
def pyStrip (b : Bytes) : Bytes :=
  ((b.dropWhile isSpaceByte).reverse.dropWhile isSpaceByte).reverse

/-- Lexicographic comparison of byte strings, `a ≤ b`; this is how Python
compares `bytes` and (on UTF-8 encodings) `str`. -/
def bytesLe : Bytes → Bytes → Bool
  | [], _ => true
  | _ :: _, [] => false
  | a :: as, b :: bs => if a < b then true else if b < a then false else bytesLe as bs

/-- A UTF-8 continuation byte. -/
def utf8Cont (b : Nat) : Bool := 128 ≤ b ∧ b ≤ 191

/-- Validity of a byte string as UTF-8 (what `bytes.decode("utf8")` accepts):
no surrogates, no overlong forms, maximum U+10FFFF. -/
def isValidUtf8 : Bytes → Bool
  | [] => true
  | b :: r =>
    if b ≤ 127 then isValidUtf8 r else
    match r with
    | c1 :: r1 =>
      if 194 ≤ b ∧ b ≤ 223 then utf8Cont c1 && isValidUtf8 r1
      else match r1 with
      | c2 :: r2 =>
        if b = 224 then decide (160 ≤ c1 ∧ c1 ≤ 191) && utf8Cont c2 && isValidUtf8 r2
        else if (225 ≤ b ∧ b ≤ 236) ∨ b = 238 ∨ b = 239 then
          utf8Cont c1 && utf8Cont c2 && isValidUtf8 r2
        else if b = 237 then decide (128 ≤ c1 ∧ c1 ≤ 159) && utf8Cont c2 && isValidUtf8 r2
        else match r2 with
        | c3 :: r3 =>
          if b = 240 then decide (144 ≤ c1 ∧ c1 ≤ 191) && utf8Cont c2 && utf8Cont c3 && isValidUtf8 r3
          else if 241 ≤ b ∧ b ≤ 243 then utf8Cont c1 && utf8Cont c2 && utf8Cont c3 && isValidUtf8 r3
          else if b = 244 then decide (128 ≤ c1 ∧ c1 ≤ 143) && utf8Cont c2 && utf8Cont c3 && isValidUtf8 r3
          else false
        | _ => false
      | _ => false
    | _ => false

/-- `os.path.dirname` for the forward-slash relative paths the index stores
(no leading or trailing separators, no doubled separators). -/
def pyDirname (p : Bytes) : Bytes :=
  match p.reverse.findIdx? (· = 47) with
  | some i => p.take (p.length - 1 - i)
  | none => []

/-- `os.path.basename` under the same conventions. -/
def pyBasename (p : Bytes) : Bytes :=
  match p.reverse.findIdx? (· = 47) with
  | some i => p.drop (p.length - i)
  | none => p

/-! ## The key-value-list-with-message codec (`kvlm_parse`/`kvlm_serialize`,
`src/objects.py` lines 170-206).

A Python dict value is either a single `bytes` or a list of `bytes` (for
repeated keys); the dict preserves insertion order, so it is modelled as an
association list, with the `None` (message) key kept separately. -/

/-- A value in the kvlm dict: `bytes`, or a list after a repeated key. -/
inductive KvlmVal where
  | one (v : Bytes)
  | many (vs : List Bytes)
deriving DecidableEq

/-- The kvlm dict: fields in insertion order plus the `None`-keyed message. -/
structure Kvlm where
  fields : List (Bytes × KvlmVal)
  message : Bytes
deriving DecidableEq

/-- `if type(val) != list: val = [val]` — the values a key stands for. -/
def kvlmValList : KvlmVal → List Bytes
  | .one v => [v]
  | .many vs => vs

/-- `v.replace(b'\n', b'\n ')`: continuation-line escaping. -/
def escNl : Bytes → Bytes
  | [] => []
  | c :: r => if c = 10 then 10 :: 32 :: escNl r else c :: escNl r

/-- `v.replace(b'\n ', b'\n')`: left-to-right non-overlapping replacement of
the two-byte pattern `NL SP` by `NL`, as Python's `bytes.replace` performs
it. -/
def unescNl : Bytes → Bytes
  | [] => []
  | [c] => [c]
  | c :: c2 :: r =>
    if c = 10 ∧ c2 = 32 then c :: unescNl r
    else c :: unescNl (c2 :: r)

/-- `kvlm_serialize` (lines 195-206): each field's values as
`key SP escaped-value NL`, then a blank line and the raw message. -/
def kvlm_serialize (k : Kvlm) : Bytes :=
  (k.fields.flatMap fun kv =>
    (kvlmValList kv.2).flatMap fun v => kv.1 ++ [32] ++ escNl v ++ [10])
  ++ [10] ++ k.message

/-- Adding one parsed `(key, value)` occurrence to the dict (lines 186-192):
a repeated key accumulates into a list at its first position. -/
def kvlmAdd (fields : List (Bytes × KvlmVal)) (key : Bytes) (v : Bytes) :
    List (Bytes × KvlmVal) :=
  match fields with
  | [] => [(key, .one v)]
  | kv :: rest =>
    if kv.1 = key then
      match kv.2 with
      | .one v0 => (kv.1, .many [v0, v]) :: rest
      | .many vs => (kv.1, .many (vs ++ [v])) :: rest
    else kv :: kvlmAdd rest key v

/-- `raw.find(b, start)` for one byte, with Python's `-1`-for-absent encoded
as `none`. -/
def pyFind (raw : Bytes) (b : Nat) (start : Nat) : Option Nat :=
  ((raw.drop start).findIdx? (· = b)).map (start + ·)

/-- The scan for the end of a field's (possibly continued) value
(lines 180-183): repeatedly find the next newline until it is not followed
by a space.  `none` models the exceptions Python raises on truncated input
(`find` failing, or `raw[end+1]` out of range). -/
def findFieldEnd (s : Bytes) (pos : Nat) : Nat → Option Nat
  | 0 => none
  | fuel + 1 =>
    match pyFind s 10 (pos + 1) with
    | none => none
    | some e =>
      match s[e + 1]? with
      | none => none
      | some c => if c = 32 then findFieldEnd s e fuel else some e

/-- `kvlm_parse` (lines 170-193).  The recursion `kvlm_parse(raw, start+…)`
only ever reads `raw[start:]`, so the cursor is modelled by passing the
remaining suffix; `none` models an assertion failure or index error. -/
def kvlm_parse_go (fields : List (Bytes × KvlmVal)) :
    Nat → Bytes → Option Kvlm
  | 0, _ => none
  | fuel + 1, s =>
    let spc := s.findIdx? (· = 32)
    let nl := s.findIdx? (· = 10)
    -- `if (spc < 0) or (nl < spc)` with find's -1 encoded as `none`
    if spc = none ∨ (nl ≠ none ∧ ∀ x ∈ spc, ∀ n ∈ nl, n < x) then
      -- `assert nl == start`; `dct[None] = raw[start+1:]`
      if nl = some 0 then some ⟨fields, s.drop 1⟩ else none
    else
      match spc with
      | none => none
      | some x =>
        let key := s.take x
        match findFieldEnd s 0 (s.length + 1) with
        | none => none
        | some e =>
          let value := unescNl ((s.drop (x + 1)).take (e - (x + 1)))
          kvlm_parse_go (kvlmAdd fields key value) fuel (s.drop (e + 1))

/-- `kvlm_parse(raw)`.  Each step consumes at least two bytes, so
`raw.length + 1` rounds of fuel always suffice. -/
def kvlm_parse (raw : Bytes) : Option Kvlm :=
  kvlm_parse_go [] (raw.length + 1) raw

/-- Well-formedness of one kvlm key: what the serialized form can represent
unambiguously (non-empty, no space, no newline). -/
def KvlmKeyWF (k : Bytes) : Prop := k ≠ [] ∧ 32 ∉ k ∧ 10 ∉ k

/-- Well-formed value shape: a list value only ever arises from a repeated
key, hence has at least two elements. -/
def KvlmValWF : KvlmVal → Prop
  | .one _ => True
  | .many vs => 2 ≤ vs.length

/-- Well-formed field mapping: distinct well-formed keys, well-formed value
shapes. -/
def KvlmWF (k : Kvlm) : Prop :=
  (k.fields.map Prod.fst).Nodup ∧
  ∀ kv ∈ k.fields, KvlmKeyWF kv.1 ∧ KvlmValWF kv.2

/-- One serialized field line, `key SP escaped-value NL`. -/
def lineOf (k v : Bytes) : Bytes := k ++ [32] ++ escNl v ++ [10]

/-- Serialized form of a list of `(key, value)` occurrences. -/
def linesOf (occs : List (Bytes × Bytes)) : Bytes :=
  occs.flatMap fun o => lineOf o.1 o.2

/-- The `(key, value)` occurrences a field list expands to, in serialization
order. -/
def occsOf (fields : List (Bytes × KvlmVal)) : List (Bytes × Bytes) :=
  fields.flatMap fun kv => (kvlmValList kv.2).map fun v => (kv.1, v)

/-- Effect of one more occurrence of an already-present key. -/
def pushVal (val : KvlmVal) (v : Bytes) : KvlmVal :=
  match val with
  | .one v0 => .many [v0, v]
  | .many vs => .many (vs ++ [v])

/-- Folding a run of occurrences into the dict. -/
def foldAdd (acc : List (Bytes × KvlmVal)) (occs : List (Bytes × Bytes)) :
    List (Bytes × KvlmVal) :=
  occs.foldl (fun fs o => kvlmAdd fs o.1 o.2) acc

/-! ### End of definitions for the kvlm codec. -/

instance : DecidablePred KvlmValWF := fun v =>
  match v with
  | .one _ => .isTrue trivial
  | .many vs => inferInstanceAs (Decidable (2 ≤ vs.length))

instance : DecidablePred KvlmKeyWF := fun k =>
  inferInstanceAs (Decidable (k ≠ [] ∧ 32 ∉ k ∧ 10 ∉ k))

instance (K : Kvlm) : Decidable (KvlmWF K) :=
  inferInstanceAs (Decidable (_ ∧ _))

/-- A concrete commit field mapping with a multi-line `author`-style value, a
repeated `parent` field and a multi-line message, used as the round-trip
witness. -/
def kvlmExample : Kvlm :=
  ⟨[(s2b ("tree"), .one (s2b ("29ff16c9c14e2652b22f8b78bb08a5a07930c147"))),
    (s2b ("parent"), .many
      [s2b ("206941306e8a8af65b66eaaaea388a7ae24d49a0"),
       s2b ("34ca87acf6454c843d84b5c5ce1b4f0b01cda3c6")]),
    (s2b ("gpgsig"), .one (s2b ("-----BEGIN PGP SIGNATURE-----\n\niQIzBAAB\n-----END PGP SIGNATURE-----"))),
    (s2b ("author"), .one (s2b ("A U Thor <author@example.com> 1527025023 +0200")))],
   s2b ("Create first draft\n\nwith a second paragraph\n")⟩

/-! ## The tree codec (`tree_parse_one`/`tree_parse`/`tree_leaf_sort_key`/
`tree_serialize`, `src/objects.py` lines 208-250).

In the source a tree leaf's `sha` is a 40-character lower-case hex string and
`tree_serialize` converts it with `int(i.sha, 16)` while `tree_parse_one`
renders it with `format(raw_sha, "040x")`; since these are mutually inverse
on 160-bit values, the embedding stores the numeric value directly. -/

/-- `GitTreeLeaf(mode, path, sha)` (lines 46-50); `sha` is the numeric value
of the 40-hex-character digest string. -/
structure GitTreeLeaf where
  mode : Bytes
  path : Bytes
  sha : Nat
deriving DecidableEq

/-- `tree_leaf_sort_key` (lines 232-238): an entry whose mode starts with
`b"10"` sorts by its bare path, every other entry as if its path ended in
`"/"`. -/
def tree_leaf_sort_key (leaf : GitTreeLeaf) : Bytes :=
  if leaf.mode.take 2 = [49, 48] then leaf.path else leaf.path ++ [47]

/-- The sort order `list.sort(key=tree_leaf_sort_key)` uses. -/
def leafLe (a b : GitTreeLeaf) : Prop :=
  bytesLe (tree_leaf_sort_key a) (tree_leaf_sort_key b) = true

instance : DecidableRel leafLe := fun a b =>
  inferInstanceAs (Decidable (_ = true))

/-- One serialized entry (`tree_serialize`'s loop body, lines 242-250):
`mode SP path NUL sha-as-20-bytes-big-endian`. -/
def tree_leaf_bytes (i : GitTreeLeaf) : Bytes :=
  i.mode ++ [32] ++ i.path ++ [0] ++ natToBytesBE 20 i.sha

/-- The concatenation of serialized entries. -/
def tree_serialize_items (items : List GitTreeLeaf) : Bytes :=
  items.flatMap tree_leaf_bytes

/-- `tree_serialize` (lines 240-250): sort the entries in place with
`tree_leaf_sort_key` (a stable sort), then concatenate. -/
def tree_serialize (items : List GitTreeLeaf) : Bytes :=
  tree_serialize_items (List.insertionSort leafLe items)

/-- `tree_parse_one` (lines 208-219): mode up to the first space (5- or
6-byte modes only, 5-byte modes left-padded with `"0"`), NUL-terminated
path, 20 raw digest bytes.  `none` models the assertion/decode exceptions. -/
def tree_parse_one (raw : Bytes) (start : Nat) : Option (Nat × GitTreeLeaf) :=
  match (raw.drop start).findIdx? (· = 32) with
  | none => none
  | some xr =>
    let x := start + xr
    if x - start = 5 ∨ x - start = 6 then
      let mode0 := (raw.drop start).take (x - start)
      let mode := if mode0.length = 5 then 48 :: mode0 else mode0
      match (raw.drop x).findIdx? (· = 0) with
      | none => none
      | some yr =>
        let y := x + yr
        let path := (raw.drop (x + 1)).take (y - (x + 1))
        if isValidUtf8 path then
          some (y + 21, ⟨mode, path, bytesToNatBE ((raw.drop (y + 1)).take 20)⟩)
        else none
    else none

/-- The loop of `tree_parse` (lines 221-230), fuel-based: each entry is at
least 28 bytes, so `raw.length + 1` rounds always suffice. -/
def tree_parse_go (raw : Bytes) : Nat → Nat → Option (List GitTreeLeaf)
  | 0, _ => none
  | f + 1, pos =>
    if pos < raw.length then
      match tree_parse_one raw pos with
      | none => none
      | some pl => (tree_parse_go raw f pl.1).map (pl.2 :: ·)
    else some []

/-- `tree_parse` (lines 221-230). -/
def tree_parse (raw : Bytes) : Option (List GitTreeLeaf) :=
  tree_parse_go raw (raw.length + 1) 0

/-- Well-formedness of one tree entry as the serialized format represents
it: a 6-byte mode without spaces, a non-empty NUL-free valid-UTF-8 path and
a 160-bit digest value. -/
def TreeLeafWF (i : GitTreeLeaf) : Prop :=
  i.mode.length = 6 ∧ 32 ∉ i.mode ∧ 0 ∉ i.path ∧
    isValidUtf8 i.path = true ∧ i.sha < 2 ^ 160

instance : DecidablePred TreeLeafWF := fun i =>
  inferInstanceAs (Decidable (_ ∧ _ ∧ _ ∧ _ ∧ _))

/-! ## The object envelope (`object_read`/`object_write`,
`src/objects.py` lines 11-111).

The store under `objects/` maps the digest (rendered as
`sha[0:2]/sha[2:]`, a bijection on digests) to the zlib-compressed framed
bytes; compression is inverted on every read, so the model maps the digest
value directly to the framed bytes.  Exceptions raised by `object_read` are
modelled by `Except`. -/

/-- The four object variants with their deserialized payloads
(lines 27-59). -/
inductive GitObject where
  | blob (blobdata : Bytes)
  | commit (kvlm : Kvlm)
  | tag (kvlm : Kvlm)
  | tree (items : List GitTreeLeaf)
deriving DecidableEq

/-- The `fmt` class attribute of each variant. -/
def GitObject.fmt : GitObject → Bytes
  | .blob _ => s2b ("blob")
  | .commit _ => s2b ("commit")
  | .tag _ => s2b ("tag")
  | .tree _ => s2b ("tree")

/-- `obj.serialize()` per variant (blob passthrough, kvlm for commit/tag,
tree codec for trees). -/
def GitObject.serialize : GitObject → Bytes
  | .blob d => d
  | .commit k => kvlm_serialize k
  | .tag k => kvlm_serialize k
  | .tree items => tree_serialize items

/-- `c(raw[y+1:])`: construct the object of format `fmt` by deserializing
the payload; `none` models a deserialization exception. -/
def objectDeserialize (fmt : Bytes) (data : Bytes) : Option GitObject :=
  if fmt = s2b ("blob") then some (.blob data)
  else if fmt = s2b ("commit") then (kvlm_parse data).map .commit
  else if fmt = s2b ("tag") then (kvlm_parse data).map .tag
  else if fmt = s2b ("tree") then (tree_parse data).map .tree
  else none

/-- The framed bytes `fmt SP len(data) NUL data` (line 89). -/
def objectFrame (fmt data : Bytes) : Bytes :=
  fmt ++ [32] ++ natDecimal data.length ++ [0] ++ data

/-- Failure modes of `object_read`: missing file (returns `None` in the
source), the `Malformed object: bad length` exception, the
`Unknown type` exception, and payload-decoding exceptions. -/
inductive ObjErr where
  | notFound
  | badLength
  | unknownType
  | parseFail
deriving DecidableEq

/-- The body of `object_read` (lines 67-82) on the decompressed bytes:
split at the first space (format) and the first NUL after it (length),
check the length against the payload size, then dispatch on the format.
(When the raw bytes contain no space or no NUL — impossible for stored
objects — Python computes garbage slices and raises; modelled as errors.) -/
def object_read_raw (raw : Bytes) : Except ObjErr GitObject :=
  match raw.findIdx? (· = 32) with
  | none => .error .unknownType
  | some x =>
    match (raw.drop x).findIdx? (· = 0) with
    | none => .error .parseFail
    | some yr =>
      let y := x + yr
      match pyParseNat ((raw.drop x).take (y - x)) with
      | none => .error .parseFail
      | some size =>
        if size ≠ raw.length - y - 1 then .error .badLength
        else
          match objectDeserialize (raw.take x) (raw.drop (y + 1)) with
          | none =>
            if raw.take x = s2b ("blob") ∨ raw.take x = s2b ("commit") ∨
                raw.take x = s2b ("tag") ∨ raw.take x = s2b ("tree") then
              .error .parseFail
            else .error .unknownType
          | some o => .ok o

/-- The object store: digest value → decompressed framed bytes. -/
abbrev Store := List (Nat × Bytes)

/-- `object_read(repository, sha)` (lines 61-82): look the digest up on
disk, then parse; a missing file makes the source return `None`
(`NotFound`). -/
def object_read (store : Store) (sha : Nat) : Except ObjErr GitObject :=
  match store.lookup sha with
  | none => .error .notFound
  | some raw => object_read_raw raw

/-- `object_write(obj, repository)` (lines 84-111), parameterised by the
digest function `h`: frame, hash, and create-if-absent in the store.
Returns the digest and the updated store. -/
def object_write (h : Bytes → Nat) (obj : GitObject) (store : Store) :
    Nat × Store :=
  let result := objectFrame obj.fmt obj.serialize
  let sha := h result
  (sha, match store.lookup sha with
        | some _ => store
        | none => store ++ [(sha, result)])

/-- Well-formedness of a payload for its kind (what "well-formed for that
kind" denotes per variant): blobs are arbitrary, commit/tag payloads are
well-formed field mappings, tree payloads are lists of well-formed entries
already in sorted order. -/
def SerialWF : GitObject → Prop
  | .blob _ => True
  | .commit k => KvlmWF k
  | .tag k => KvlmWF k
  | .tree items => (∀ i ∈ items, TreeLeafWF i) ∧ List.Sorted leafLe items

instance : DecidablePred SerialWF := fun o =>
  match o with
  | .blob _ => .isTrue trivial
  | .commit k => inferInstanceAs (Decidable (KvlmWF k))
  | .tag k => inferInstanceAs (Decidable (KvlmWF k))
  | .tree _ => inferInstanceAs (Decidable (_ ∧ _))

/-! ## Name resolution (`ref_resolve`, `src/repo.py` lines 127-138;
`object_resolve`/`object_find`, `src/objects.py` lines 113-158).

The filesystem state a resolution reads is modelled as data: the ref files
(path → raw file content, as `open(path).read()` returns it), the flattened
object directory listing (stored digests as 40-hex-character strings, in
listing order), and the object store (digest → decompressed object file
bytes). -/

structure RepoM where
  refFiles : List (Bytes × Bytes)
  objects : List Bytes
  store : List (Bytes × Bytes)

/-- `ref_resolve(repository, ref)` (repo.py 127-138): a missing file gives
`None`; the content minus its final character (`read()[:-1]`) either names
another ref (`"ref: ..."`) to recurse on, or is the digest.  Python's
recursion is unbounded (a cycle would overflow the stack); fuel of one per
ref file plus one covers every acyclic chain. -/
def ref_resolve (r : RepoM) : Nat → Bytes → Option Bytes
  | 0, _ => none
  | f + 1, ref =>
    match r.refFiles.lookup ref with
    | none => none
    | some content =>
      if (s2b ("ref: ")).isPrefixOf content.dropLast then
        ref_resolve r f (content.dropLast.drop 5)
      else some content.dropLast

/-- The regex `^[0-9A-Fa-f]{4,40}$`. -/
def hashREMatch (name : Bytes) : Bool :=
  4 ≤ name.length ∧ name.length ≤ 40 ∧ name.all isHexByte

/-- `object_resolve(repository, name)` (objects.py 136-158): `none` for a
blank name (the source returns `None`); `"HEAD"` resolves symbolically
(which can put `None` in the candidate list, hence `Option Bytes`
elements); a 4-40-hex name is lower-cased and matched as a digest prefix
against the object directory (which exists when at least one object with
that 2-character prefix was written); the (lower-cased, if hex) name is
also tried as a tag, branch and remote ref, in that order. -/
def object_resolve (r : RepoM) (name : Bytes) : Option (List (Option Bytes)) :=
  if pyStrip name = [] then none
  else if name = s2b ("HEAD") then
    some [ref_resolve r (r.refFiles.length + 1) (s2b ("HEAD"))]
  else
    let name2 := if hashREMatch name then name.map byteLower else name
    let hexCands : List (Option Bytes) :=
      if hashREMatch name then
        if (r.objects.filter fun d => d.take 2 = name2.take 2) = [] then []
        else ((r.objects.filter fun d => d.take 2 = name2.take 2).filter
          fun d => (name2.drop 2).isPrefixOf (d.drop 2)).map some
      else []
    let c1 :=
      match ref_resolve r (r.refFiles.length + 1) (s2b ("refs/tags/") ++ name2) with
      | some t => hexCands ++ [some t]
      | none => hexCands
    let c2 :=
      match ref_resolve r (r.refFiles.length + 1) (s2b ("refs/heads/") ++ name2) with
      | some t => c1 ++ [some t]
      | none => c1
    let c3 :=
      match ref_resolve r (r.refFiles.length + 1) (s2b ("refs/remotes/") ++ name2) with
      | some t => c2 ++ [some t]
      | none => c2
    some c3

/-- The outcomes of `object_find`: the two exceptions it raises, the
spec's `WrongKind` (present in the error vocabulary but, as proved below,
never produced by the code), and `crash` for unhandled Python exceptions
(`AttributeError` on a failed read, `KeyError`/`AttributeError` on a
missing or repeated kvlm field, unbounded dereference cycles). -/
inductive FindErr where
  | noSuchReference
  | ambiguousReference (cands : List (Option Bytes))
  | wrongKind
  | crash
deriving DecidableEq

/-- `object_read` keyed by the 40-hex digest string (the on-disk path is
`sha[0:2]/sha[2:]`, a bijection on digests). -/
def object_read_hex (r : RepoM) (sha : Bytes) : Except ObjErr GitObject :=
  match r.store.lookup sha with
  | none => .error .notFound
  | some raw => object_read_raw raw

/-- `obj.kvlm[key].decode("ascii")`: a single `bytes` value for the key; a
missing key raises `KeyError`, a repeated (list) value makes `.decode`
raise. -/
def kvlmGetOne (k : Kvlm) (key : Bytes) : Option Bytes :=
  match k.fields.lookup key with
  | some (.one v) => some v
  | _ => none

/-- The dereference loop of `object_find` (objects.py 122-134): return the
digest when the kind matches; return `None` when not following; follow a
tag via its `object` field, a commit via its `tree` field when a tree is
requested; otherwise return `None`.  Fuel (one per stored object plus one)
models the source's unbounded `while True`. -/
def objectFindLoop (r : RepoM) (fmt : Bytes) (follow : Bool) :
    Nat → Bytes → Except FindErr (Option Bytes)
  | 0, _ => .error .crash
  | f + 1, sha =>
    match object_read_hex r sha with
    | .error _ => .error .crash
    | .ok obj =>
      if obj.fmt = fmt then .ok (some sha)
      else if follow = false then .ok none
      else
        match obj with
        | .tag k =>
          match kvlmGetOne k (s2b ("object")) with
          | some sha2 => objectFindLoop r fmt follow f sha2
          | none => .error .crash
        | .commit k =>
          if fmt = s2b ("tree") then
            match kvlmGetOne k (s2b ("tree")) with
            | some sha2 => objectFindLoop r fmt follow f sha2
            | none => .error .crash
          else .ok none
        | _ => .ok none

/-- `object_find(repository, name, fmt, follow)` (objects.py 113-134):
raise `No such reference` on an empty candidate set, `Ambiguous reference`
(listing the candidates) on more than one, otherwise take the sole
candidate; without a kind filter return it as-is, else run the dereference
loop. -/
def object_find (r : RepoM) (name : Bytes) (fmt : Option Bytes)
    (follow : Bool) : Except FindErr (Option Bytes) :=
  match object_resolve r name with
  | none => .error .noSuchReference
  | some cands =>
    if cands = [] then .error .noSuchReference
    else if 1 < cands.length then .error (.ambiguousReference cands)
    else
      match cands.head? with
      | none => .error .crash
      | some none =>
        match fmt with
        | none => .ok none
        | some _ => .error .crash
      | some (some sha) =>
        match fmt with
        | none => .ok (some sha)
        | some fmtB => objectFindLoop r fmtB follow (r.store.length + 1) sha

instance {ε α : Type} [DecidableEq ε] [DecidableEq α] :
    DecidableEq (Except ε α)
  | .error e1, .error e2 =>
    if h : e1 = e2 then .isTrue (by rw [h])
    else .isFalse (fun hc => h (by injection hc))
  | .error _, .ok _ => .isFalse (fun hc => Except.noConfusion hc)
  | .ok _, .error _ => .isFalse (fun hc => Except.noConfusion hc)
  | .ok a1, .ok a2 =>
    if h : a1 = a2 then .isTrue (by rw [h])
    else .isFalse (fun hc => h (by injection hc))

/-- A repository holding exactly two blobs whose digests share the first
four hex characters. -/
def repoC6 : RepoM :=
  ⟨[],
   [s2b ("abcd0000000000000000000000000000000000a1"),
    s2b ("abcd0000000000000000000000000000000000a2")],
   [(s2b ("abcd0000000000000000000000000000000000a1"),
     objectFrame (s2b ("blob")) (s2b ("x"))),
    (s2b ("abcd0000000000000000000000000000000000a2"),
     objectFrame (s2b ("blob")) (s2b ("y")))]⟩

/-- A repository holding exactly one blob object. -/
def repoC7 : RepoM :=
  ⟨[],
   [s2b ("aaaa0000000000000000000000000000000000ff")],
   [(s2b ("aaaa0000000000000000000000000000000000ff"),
     objectFrame (s2b ("blob")) (s2b ("hi")))]⟩

/-! ## The staging index binary codec (`index_read`/`index_write`,
`src/index.py` lines 9-134).

`GitIndexEntry.sha` is kept as the literal 40-character hex string the
source stores (`index_read` renders it with `format(..., "040x")`,
`index_write` parses it with `int(e.sha, 16)`), because the round-trip
claim is sensitive to its spelling. -/

/-- A lower-case hex digit (what `format(n, "040x")` can produce). -/
def isLowerHexByte (c : Nat) : Bool :=
  (48 ≤ c ∧ c ≤ 57) ∨ (97 ≤ c ∧ c ≤ 102)

/-- `GitIndexEntry` (index.py 9-23). -/
structure GitIndexEntry where
  ctime : Nat × Nat
  mtime : Nat × Nat
  dev : Nat
  ino : Nat
  mode_type : Nat
  mode_perms : Nat
  uid : Nat
  gid : Nat
  fsize : Nat
  sha : Bytes
  flag_assume_valid : Bool
  flag_stage : Nat
  name : Bytes
deriving DecidableEq

/-- `GitIndex` (index.py 25-31). -/
structure GitIndex where
  version : Nat
  entries : List GitIndexEntry
deriving DecidableEq

/-- The bytes `index_write` emits for one entry before padding
(index.py 104-123): ten 32-bit fields (the third-from-last 4-byte field is
`(mode_type << 12) | mode_perms`, whose upper two bytes are the reserved
zero bytes), the 20-byte digest, the 2-byte flags word and the
NUL-terminated name. -/
def index_entry_bytes (e : GitIndexEntry) : Bytes :=
  natToBytesBE 4 e.ctime.1 ++ natToBytesBE 4 e.ctime.2 ++
  natToBytesBE 4 e.mtime.1 ++ natToBytesBE 4 e.mtime.2 ++
  natToBytesBE 4 e.dev ++ natToBytesBE 4 e.ino ++
  natToBytesBE 4 (Nat.lor (e.mode_type <<< 12) e.mode_perms) ++
  natToBytesBE 4 e.uid ++ natToBytesBE 4 e.gid ++ natToBytesBE 4 e.fsize ++
  natToBytesBE 20 (hexVal e.sha) ++
  natToBytesBE 2 (Nat.lor (Nat.lor (if e.flag_assume_valid then 32768 else 0)
    e.flag_stage) (if 4095 ≤ e.name.length then 4095 else e.name.length)) ++
  e.name ++ [0]

/-- The entry loop of `index_write` (index.py 103-128), tracking the byte
offset `idx` for the zero padding to the next 8-byte boundary. -/
def index_write_entries : List GitIndexEntry → Nat → Bytes
  | [], _ => []
  | e :: rest, idx =>
    let idx2 := idx + 62 + e.name.length + 1
    let pad := if idx2 % 8 ≠ 0 then 8 - idx2 % 8 else 0
    index_entry_bytes e ++ List.replicate pad 0 ++
      index_write_entries rest (idx2 + pad)

/-- `index_write` (index.py 92-134): `DIRC`, version, entry count, then
the entries. -/
def index_write (index : GitIndex) : Bytes :=
  s2b ("DIRC") ++ natToBytesBE 4 index.version ++
    natToBytesBE 4 index.entries.length ++ index_write_entries index.entries 0

/-- `int.from_bytes(content[idx+a : idx+b], "big")`, the field extractor
every line of `index_read`'s entry loop uses. -/
def fldAt (content : Bytes) (idx a b : Nat) : Nat :=
  bytesToNatBE ((content.drop (idx + a)).take (b - a))

/-- One iteration of `index_read`'s entry loop (index.py 51-89), on the
post-header content at offset `idx`; returns the parsed entry and the
8-aligned offset of the next one.  `none` models the assertions
(reserved bytes, mode kind, extended flag, NUL terminator) and a UTF-8
decode error. -/
def index_read_entry (content : Bytes) (idx : Nat) :
    Option (GitIndexEntry × Nat) :=
  if fldAt content idx 24 26 ≠ 0 then none
  else
    let mode := fldAt content idx 26 28
    let mode_type := mode >>> 12
    if mode_type = 8 ∨ mode_type = 10 ∨ mode_type = 14 then
      let flags := fldAt content idx 60 62
      if flags &&& 16384 ≠ 0 then none
      else
        let name_length := flags &&& 4095
        let nameAndNext : Option (Bytes × Nat) :=
          if name_length < 4095 then
            if content[idx + 62 + name_length]? = some 0 then
              some ((content.drop (idx + 62)).take name_length,
                idx + 62 + name_length + 1)
            else none
          else
            match (content.drop (idx + 62 + 4095)).findIdx? (· = 0) with
            | none => none
            | some ni =>
              some ((content.drop (idx + 62)).take (4095 + ni),
                idx + 62 + 4095 + ni + 1)
        match nameAndNext with
        | none => none
        | some (raw_name, idx2) =>
          if isValidUtf8 raw_name then
            some (⟨(fldAt content idx 0 4, fldAt content idx 4 8),
              (fldAt content idx 8 12, fldAt content idx 12 16),
              fldAt content idx 16 20, fldAt content idx 20 24, mode_type,
              mode &&& 511, fldAt content idx 28 32, fldAt content idx 32 36,
              fldAt content idx 36 40, hexRender40 (fldAt content idx 40 60),
              flags &&& 32768 ≠ 0, flags &&& 12288, raw_name⟩,
              8 * ((idx2 + 7) / 8))
          else none
    else none

/-- The entry loop of `index_read`, one round per counted entry. -/
def index_read_entries (content : Bytes) :
    Nat → Nat → Option (List GitIndexEntry)
  | 0, _ => some []
  | count + 1, idx =>
    match index_read_entry content idx with
    | none => none
    | some ei => (index_read_entries content count ei.2).map (ei.1 :: ·)

/-- `index_read` (index.py 33-90) on the file bytes: check the `DIRC`
signature and version 2, then parse `count` entries from the content after
the 12-byte header. -/
def index_read (raw : Bytes) : Option GitIndex :=
  if raw.take 4 = s2b ("DIRC") then
    if bytesToNatBE ((raw.drop 4).take 4) = 2 then
      (index_read_entries (raw.drop 12)
        (bytesToNatBE ((raw.drop 8).take 4)) 0).map
        (⟨bytesToNatBE ((raw.drop 4).take 4), ·⟩)
    else none
  else none

/-- In-range fields for one index entry, as claim C4 lists them — with the
digest condition strengthened to lower-case hex (the amendment C4's
counterexample forces). -/
def IndexEntryWF (e : GitIndexEntry) : Prop :=
  e.ctime.1 < 2 ^ 32 ∧ e.ctime.2 < 2 ^ 32 ∧
  e.mtime.1 < 2 ^ 32 ∧ e.mtime.2 < 2 ^ 32 ∧
  e.dev < 2 ^ 32 ∧ e.ino < 2 ^ 32 ∧
  (e.mode_type = 8 ∨ e.mode_type = 10 ∨ e.mode_type = 14) ∧
  e.mode_perms < 512 ∧ e.uid < 2 ^ 32 ∧ e.gid < 2 ^ 32 ∧ e.fsize < 2 ^ 32 ∧
  e.sha.length = 40 ∧ (∀ c ∈ e.sha, isLowerHexByte c = true) ∧
  (e.flag_stage = 0 ∨ e.flag_stage = 4096 ∨ e.flag_stage = 8192 ∨
    e.flag_stage = 12288) ∧
  0 ∉ e.name ∧ isValidUtf8 e.name = true

instance : DecidablePred IndexEntryWF := fun e =>
  inferInstanceAs (Decidable (_ ∧ _))

/-- In-range staging index: version 2, a 32-bit entry count, in-range
entries. -/
def IndexWF (i : GitIndex) : Prop :=
  i.version = 2 ∧ i.entries.length < 2 ^ 32 ∧ ∀ e ∈ i.entries, IndexEntryWF e

instance (i : GitIndex) : Decidable (IndexWF i) :=
  inferInstanceAs (Decidable (_ ∧ _))

/-- An index entry whose digest is spelled with upper-case hex — allowed by
`int(e.sha, 16)` on the write path, but `index_read` re-renders digests
with `format(..., "040x")` in lower case. -/
def upperEntry : GitIndexEntry :=
  ⟨(1, 2), (3, 4), 5, 6, 8, 420, 7, 9, 11,
    s2b ("0000000000000000000000000000000000000FAB"), false, 0,
    s2b ("a.txt")⟩

/-- A one-entry index carrying an upper-case digest. -/
def upperIndex : GitIndex := ⟨2, [upperEntry]⟩

/-- Two in-range entries with lower-case digests. -/
def wfEntry1 : GitIndexEntry :=
  ⟨(1, 2), (3, 4), 5, 6, 8, 420, 7, 9, 11,
    s2b ("0000000000000000000000000000000000000fab"), false, 0,
    s2b ("a.txt")⟩

def wfEntry2 : GitIndexEntry :=
  ⟨(10, 20), (30, 40), 50, 60, 10, 0, 70, 90, 110,
    s2b ("00000000000000000000000000000000000001cd"), true, 4096,
    s2b ("dir/b.txt")⟩

/-- A well-formed two-entry index. -/
def wfIndex : GitIndex := ⟨2, [wfEntry1, wfEntry2]⟩

/-! ## Staging operations `rm` and `add` (index.py 136-207).

Paths are modelled relative to the worktree root: `os.path.abspath(path)`
and `os.path.join(repository.worktree, e.name)` both prefix the same
worktree path, so membership tests between them compare the relative
parts.  The filesystem is abstracted by `Worktree`. -/

/-- The filesystem facts `add` consults: which relative paths are
directories / files, `os.walk` restricted to files under a directory (with
the `.git` subtree already skipped, as the source's `continue` does), and
the `GitIndexEntry` that `os.stat` + `object_hash` build for a file
(`add` then sets its `name` to the relative path). -/
structure Worktree where
  isdir : Bytes → Bool
  isfile : Bytes → Bool
  filesUnder : Bytes → List Bytes
  entryFor : Bytes → GitIndexEntry

/-- The kept entries of `rm` (index.py 146-154): each entry whose path is
in the remaining removal set is dropped and consumes its set element
(`abspaths.remove`); all others are kept. -/
def rm_keep : List GitIndexEntry → List Bytes → List GitIndexEntry
  | [], _ => []
  | e :: rest, aps =>
    if e.name ∈ aps then rm_keep rest (aps.erase e.name)
    else e :: rm_keep rest aps

/-- The `clean_paths` collection of `add` (index.py 167-192): a directory
argument contributes every file under it, a file argument contributes
itself.  (The source collects them in a Python `set` with unspecified
iteration order; one fixed order is modelled.) -/
def add_clean_paths (w : Worktree) (paths : List Bytes) : List Bytes :=
  paths.flatMap (fun p =>
    if w.isdir p then w.filesUnder p
    else if w.isfile p then [p] else [])

/-- `add` (index.py 163-207): first `rm(paths, delete=False,
skip_missing=True)` with the *raw* argument paths, then append one fresh
entry per clean path to the re-read index; `none` models the exception for
an argument that is neither a directory nor a file. -/
def add_model (w : Worktree) (index : List GitIndexEntry)
    (paths : List Bytes) : Option (List GitIndexEntry) :=
  if paths.all (fun p => w.isdir p || w.isfile p) then
    some (rm_keep index paths ++
      (add_clean_paths w paths).map (fun p => { w.entryFor p with name := p }))
  else none

/-- A concrete staged entry for the file `dir/b.txt`. -/
def c9Entry : GitIndexEntry :=
  ⟨(1, 2), (3, 4), 5, 6, 8, 420, 7, 9, 11,
    s2b ("0000000000000000000000000000000000000001"), false, 0,
    s2b ("dir/b.txt")⟩

/-- A worktree with the single file `dir/b.txt` inside directory `dir`. -/
def c9Worktree : Worktree where
  isdir := fun p => decide (p = s2b ("dir"))
  isfile := fun p => decide (p = s2b ("dir/b.txt"))
  filesUnder := fun p => if p = s2b ("dir") then [s2b ("dir/b.txt")] else []
  entryFor := fun _ => c9Entry

/-! ## `tree_from_index` (index.py 209-240).

`contents` is a Python dict (insertion-ordered) from directory path to the
list of its direct members, modelled as an association list; a member is
either a staged file entry or a `(basename, sha)` pair for an already
written subtree.  Digests are the `Nat` values of the hash parameter `h`,
so a staged entry's hex digest string enters a leaf as `hexVal e.sha`
(the `int(leaf.sha, 16)` conversion `tree_serialize` performs). -/

/-- A member of `contents[path]`: a `GitIndexEntry` or a `(base, sha)`
tuple. -/
inductive GroupItem where
  | file (e : GitIndexEntry)
  | sub (base : Bytes) (sha : Nat)
deriving DecidableEq

/-- `if not key in contents: contents[key] = list()` — dict insertion
appends the key at the end of the order. -/
def contentsEnsure (c : List (Bytes × List GroupItem)) (key : Bytes) :
    List (Bytes × List GroupItem) :=
  if (c.lookup key).isSome then c else c ++ [(key, [])]

/-- `contents[key].append(it)` for a present key. -/
def contentsAppend (c : List (Bytes × List GroupItem)) (key : Bytes)
    (it : GroupItem) : List (Bytes × List GroupItem) :=
  c.map (fun kv => if kv.1 = key then (kv.1, kv.2 ++ [it]) else kv)

/-- The `while key != ""` ancestor-insertion loop; `os.path.dirname`
strictly shortens a nonempty path, so `key.length + 1` fuel suffices. -/
def ensureParents : Nat → List (Bytes × List GroupItem) → Bytes →
    List (Bytes × List GroupItem)
  | 0, c, _ => c
  | fuel + 1, c, key =>
    if key = [] then c
    else ensureParents fuel (contentsEnsure c key) (pyDirname key)

/-- The `contents` dict after the first loop of `tree_from_index`
(index.py 213-222). -/
def contentsOf (entries : List GitIndexEntry) :
    List (Bytes × List GroupItem) :=
  entries.foldl
    (fun c e =>
      let d := pyDirname e.name
      contentsAppend (ensureParents (d.length + 1) c d) d (.file e))
    [([], [])]

/-- Two-digit zero-padded octal (`f"{v:02o}"` for `v < 64`). -/
def octDigits2 (n : Nat) : Bytes := [48 + n / 8 % 8, 48 + n % 8]

/-- Four-digit zero-padded octal (`f"{v:04o}"` for `v < 4096`). -/
def octDigits4 (n : Nat) : Bytes :=
  [48 + n / 512 % 8, 48 + n / 64 % 8, 48 + n / 8 % 8, 48 + n % 8]

/-- The leaf built for one member (index.py 230-234). -/
def leafOfGroupItem : GroupItem → GitTreeLeaf
  | .file e =>
    ⟨octDigits2 e.mode_type ++ octDigits4 e.mode_perms,
      pyBasename e.name, hexVal e.sha⟩
  | .sub base sha => ⟨s2b ("040000"), base, sha⟩

/-- The write loop of `tree_from_index` (index.py 225-239), recording for
each write the processed path, the tree's leaves, the digest, and the
store *before* that write. -/
def tree_from_index_go (h : Bytes → Nat) :
    List Bytes → List (Bytes × List GroupItem) → Store → Option Nat →
    List (Bytes × List GitTreeLeaf × Nat × Store) →
    Option Nat × Store × List (Bytes × List GitTreeLeaf × Nat × Store)
  | [], _, store, sha, trace => (sha, store, trace)
  | path :: rest, contents, store, _, trace =>
    let tree := ((contents.lookup path).getD []).map leafOfGroupItem
    let ws := object_write h (.tree tree) store
    tree_from_index_go h rest
      (contentsAppend contents (pyDirname path)
        (.sub (pyBasename path) ws.1))
      ws.2 (some ws.1) (trace ++ [(path, tree, ws.1, store)])

/-- `tree_from_index(repository, index)`: build `contents`, sort its keys
by length descending (`sorted(..., key=len, reverse=True)`, a stable
sort), then write a tree per directory bottom-up; returns the root digest
(`None` only if no path was processed), the final store, and the write
trace. -/
def tree_from_index (h : Bytes → Nat) (index : GitIndex) (store : Store) :
    Option Nat × Store × List (Bytes × List GitTreeLeaf × Nat × Store) :=
  let contents := contentsOf index.entries
  let sorted_paths :=
    List.insertionSort (fun a b : Bytes => b.length ≤ a.length)
      (contents.map (·.1))
  tree_from_index_go h sorted_paths contents store none []

/-- The three staged entries of claim C1: `a.txt`, `dir/b.txt`,
`dir/sub/c.txt`, all regular files with permissions `0o644`. -/
def c1e1 : GitIndexEntry :=
  ⟨(1, 2), (3, 4), 5, 6, 8, 420, 7, 9, 11,
    s2b ("0000000000000000000000000000000000000001"), false, 0,
    s2b ("a.txt")⟩

def c1e2 : GitIndexEntry :=
  ⟨(1, 2), (3, 4), 5, 6, 8, 420, 7, 9, 11,
    s2b ("0000000000000000000000000000000000000002"), false, 0,
    s2b ("dir/b.txt")⟩

def c1e3 : GitIndexEntry :=
  ⟨(1, 2), (3, 4), 5, 6, 8, 420, 7, 9, 11,
    s2b ("0000000000000000000000000000000000000003"), false, 0,
    s2b ("dir/sub/c.txt")⟩

def c1Index : GitIndex := ⟨2, [c1e1, c1e2, c1e3]⟩

/-- The framed bytes of the `dir/sub` tree (its only entry is `c.txt`). -/
def c1SubFrame : Bytes :=
  objectFrame (s2b ("tree"))
    (tree_serialize [leafOfGroupItem (.file c1e3)])

/-- The framed bytes of the `dir` tree: `b.txt` plus the `sub` subtree. -/
def c1DirFrame (h : Bytes → Nat) : Bytes :=
  objectFrame (s2b ("tree"))
    (tree_serialize [leafOfGroupItem (.file c1e2),
      ⟨s2b ("040000"), s2b ("sub"), h c1SubFrame⟩])

/-- The framed bytes of the root tree: `a.txt` plus the `dir` subtree. -/
def c1RootFrame (h : Bytes → Nat) : Bytes :=
  objectFrame (s2b ("tree"))
    (tree_serialize [leafOfGroupItem (.file c1e1),
      ⟨s2b ("040000"), s2b ("dir"), h (c1DirFrame h)⟩])

/-! # Theorems -/

/-! ## Byte-level helper lemmas -/

theorem findIdx?_start {α : Type} (p : α → Bool) :
    ∀ (l : List α) (i : Nat), l.findIdx? p i = (l.findIdx? p).map (· + i)
  | [], i => by simp
  | x :: xs, i => by
    rw [List.findIdx?_cons, List.findIdx?_cons]
    by_cases h : p x
    · simp [h]
    · simp only [h, Bool.false_eq_true, if_false,
        findIdx?_start p xs (i + 1), findIdx?_start p xs 1, Option.map_map]
      congr 1
      funext j
      simp only [Function.comp_apply]
      omega

theorem findIdx?_none_of_all {α : Type} {p : α → Bool} {l : List α}
    (h : ∀ x ∈ l, ¬ p x) : l.findIdx? p = none := by
  rw [List.findIdx?_eq_none_iff]
  intro x hx
  simpa using h x hx

theorem findIdx?_append_left_none {α : Type} {p : α → Bool} {l₁ l₂ : List α}
    (h : l₁.findIdx? p = none) :
    (l₁ ++ l₂).findIdx? p = (l₂.findIdx? p).map (· + l₁.length) := by
  rw [List.findIdx?_append, h, Option.none_or]

theorem unescNl_cons_sp {r : Bytes} :
    unescNl (10 :: 32 :: r) = 10 :: unescNl r := by
  rw [unescNl]
  simp

theorem unescNl_cons_ne {c : Nat} {r : Bytes}
    (h : ¬(c = 10 ∧ r.head? = some 32)) :
    unescNl (c :: r) = c :: unescNl r := by
  match r with
  | [] => rfl
  | c2 :: r' =>
    rw [unescNl]
    simp only [List.head?_cons, Option.some.injEq] at h
    simp [h]

theorem unescNl_escNl : ∀ v : Bytes, unescNl (escNl v) = v
  | [] => rfl
  | c :: r => by
    by_cases h : c = 10
    · subst h
      rw [show escNl (10 :: r) = 10 :: 32 :: escNl r from by rw [escNl]; simp,
        unescNl_cons_sp, unescNl_escNl r]
    · rw [show escNl (c :: r) = c :: escNl r from by rw [escNl]; simp [h],
        unescNl_cons_ne, unescNl_escNl r]
      rintro ⟨hc, -⟩
      exact h hc

theorem findFieldEnd_shift : ∀ (fuel : Nat) (s : Bytes) (pos q : Nat),
    findFieldEnd s (pos + q) fuel = (findFieldEnd (s.drop pos) q fuel).map (pos + ·)
  | 0, s, pos, q => rfl
  | fuel + 1, s, pos, q => by
    rw [findFieldEnd, findFieldEnd]
    have hpf : pyFind s 10 (pos + q + 1) =
        (pyFind (s.drop pos) 10 (q + 1)).map (pos + ·) := by
      rw [pyFind, pyFind, List.drop_drop, Option.map_map,
        show pos + (q + 1) = pos + q + 1 from by omega]
      congr 1
      funext i
      simp only [Function.comp_apply]
      omega
    rw [hpf]
    cases hfe : pyFind (s.drop pos) 10 (q + 1) with
    | none => rfl
    | some e =>
      simp only [Option.map_some']
      have hget : s[pos + e + 1]? = (s.drop pos)[e + 1]? := by
        rw [List.getElem?_drop, show pos + (e + 1) = pos + e + 1 from by omega]
      rw [hget]
      cases hg : (s.drop pos)[e + 1]? with
      | none => rfl
      | some c =>
        by_cases hc : c = 32
        · subst hc
          simp only [if_pos rfl]
          exact findFieldEnd_shift fuel s pos e
        · simp [hc]

theorem pyFind_after_clean (c d' : Bytes) (hc : c ≠ [])
    (h10 : ∀ x ∈ c.drop 1, x ≠ 10) :
    pyFind (c ++ 10 :: d') 10 1 = some c.length := by
  have hlen : 1 ≤ c.length := List.length_pos.mpr hc
  rw [pyFind, List.drop_append_of_le_length hlen,
    findIdx?_append_left_none (findIdx?_none_of_all (by simpa using h10))]
  rw [List.findIdx?_cons]
  simp only [show decide ((10 : Nat) = 10) = true from rfl, if_true,
    Option.map_some', List.length_drop]
  show some (1 + (0 + (c.length - 1))) = some c.length
  simp only [Option.some.injEq]
  omega

theorem getElem_after_clean (c d' : Bytes) :
    (c ++ 10 :: d')[c.length + 1]? = d'[0]? := by
  rw [List.getElem?_append, if_neg (by omega)]
  simp

theorem escNl_length_ge (v : Bytes) : v.length ≤ (escNl v).length := by
  induction v with
  | nil => simp [escNl]
  | cons c r ih =>
    rw [escNl]
    by_cases h : c = 10 <;> simp [h] <;> omega

theorem findFieldEnd_step (s : Bytes) (pos f : Nat) {e cb : Nat}
    (hf : pyFind s 10 (pos + 1) = some e) (hg : s[e + 1]? = some cb) :
    findFieldEnd s pos (f + 1) =
      if cb = 32 then findFieldEnd s e f else some e := by
  simp only [findFieldEnd, hf, hg]

theorem findFieldEnd_line : ∀ (v c d : Bytes) (fuel : Nat), c ≠ [] →
    (∀ x ∈ c.drop 1, x ≠ 10) → d.head? ≠ some 32 → d ≠ [] →
    v.length + 1 ≤ fuel →
    findFieldEnd (c ++ escNl v ++ 10 :: d) 0 fuel =
      some (c.length + (escNl v).length)
  | [], c, d, fuel, hc, h10, hd32, hdne, hfuel => by
    obtain ⟨f, rfl⟩ : ∃ f, fuel = f + 1 := ⟨fuel - 1, by omega⟩
    obtain ⟨y, d', rfl⟩ : ∃ y d', d = y :: d' := by
      cases d with
      | nil => exact absurd rfl hdne
      | cons y d' => exact ⟨y, d', rfl⟩
    have hy : y ≠ 32 := by simpa using fun h => hd32 (by simp [h])
    rw [show c ++ escNl [] ++ 10 :: (y :: d') = c ++ 10 :: (y :: d') from by
      simp [escNl]]
    rw [@findFieldEnd_step _ 0 f _ y (pyFind_after_clean c _ hc h10)
      (by rw [getElem_after_clean c _]; simp)]
    rw [if_neg hy]
    simp [escNl]
  | b :: v', c, d, fuel, hc, h10, hd32, hdne, hfuel => by
    obtain ⟨f, rfl⟩ : ∃ f, fuel = f + 1 := ⟨fuel - 1, by omega⟩
    by_cases hb : b = 10
    · subst hb
      have hesc : escNl (10 :: v') = 10 :: 32 :: escNl v' := by rw [escNl]; simp
      have hshape : c ++ escNl (10 :: v') ++ 10 :: d =
          c ++ 10 :: (32 :: (escNl v' ++ 10 :: d)) := by rw [hesc]; simp
      rw [hshape]
      rw [@findFieldEnd_step _ 0 f _ 32 (pyFind_after_clean c _ hc h10)
        (by rw [getElem_after_clean c _]; simp)]
      rw [if_pos rfl]
      have hsh := findFieldEnd_shift f (c ++ 10 :: (32 :: (escNl v' ++ 10 :: d)))
        c.length 0
      rw [show c.length + 0 = c.length from rfl] at hsh
      have hdrop : (c ++ 10 :: (32 :: (escNl v' ++ 10 :: d))).drop c.length =
          ([10, 32] ++ escNl v') ++ 10 :: d := by
        rw [show c ++ 10 :: (32 :: (escNl v' ++ 10 :: d)) =
          c ++ (([10, 32] ++ escNl v') ++ 10 :: d) from by simp, List.drop_left]
      rw [hsh, hdrop, findFieldEnd_line v' [10, 32] d f (by simp) (by simp)
        hd32 hdne (by simp only [List.length_cons] at hfuel; omega)]
      rw [hesc]
      simp only [Option.map_some', Option.some.injEq, List.length_cons,
        List.length_append, List.length_nil]
      omega
    · have hesc : escNl (b :: v') = b :: escNl v' := by rw [escNl]; simp [hb]
      have hshape : c ++ escNl (b :: v') ++ 10 :: d =
          (c ++ [b]) ++ escNl v' ++ 10 :: d := by rw [hesc]; simp
      rw [hshape, findFieldEnd_line v' (c ++ [b]) d (f + 1) (by simp) (by
        intro x hx
        rw [List.drop_append_of_le_length (List.length_pos.mpr hc)] at hx
        rcases List.mem_append.mp hx with h | h
        · exact h10 x h
        · intro hxb
          exact hb ((List.mem_singleton.mp h ▸ hxb.symm).symm ▸ rfl)) hd32 hdne
        (by simp only [List.length_cons] at hfuel; omega)]
      rw [hesc]
      simp only [Option.some.injEq, List.length_append, List.length_cons,
        List.length_nil]
      omega

theorem findIdx?_eq_byte_none {b : Nat} {l : Bytes} (h : b ∉ l) :
    l.findIdx? (· = b) = none := by
  apply findIdx?_none_of_all
  intro x hx hxb
  apply h
  have hxb2 : x = b := by simpa using hxb
  exact hxb2 ▸ hx

theorem lineOf_shape (k v T : Bytes) :
    lineOf k v ++ T = k ++ 32 :: (escNl v ++ 10 :: T) := by
  simp [lineOf]

theorem kvlm_parse_go_step (fields : List (Bytes × KvlmVal)) (f : Nat)
    (k v T : Bytes) (hk : KvlmKeyWF k) (hT32 : T.head? ≠ some 32)
    (hTne : T ≠ []) :
    kvlm_parse_go fields (f + 1) (lineOf k v ++ T) =
      kvlm_parse_go (kvlmAdd fields k v) f T := by
  obtain ⟨hkne, hk32, hk10⟩ := hk
  have hspc : (lineOf k v ++ T).findIdx? (· = 32) = some k.length := by
    rw [lineOf_shape,
      findIdx?_append_left_none (findIdx?_eq_byte_none hk32),
      List.findIdx?_cons]
    simp
  have hrest10 : ∃ j, (escNl v ++ 10 :: T).findIdx? (· = 10) = some j := by
    cases hj : (escNl v ++ 10 :: T).findIdx? (· = 10) with
    | some j => exact ⟨j, rfl⟩
    | none =>
      rw [List.findIdx?_eq_none_iff] at hj
      have := hj 10 (by simp)
      simp at this
  obtain ⟨j, hj⟩ := hrest10
  have hnl : (lineOf k v ++ T).findIdx? (· = 10) = some (j + 1 + k.length) := by
    rw [lineOf_shape,
      findIdx?_append_left_none (findIdx?_eq_byte_none hk10),
      List.findIdx?_cons]
    simp only [show decide ((32 : Nat) = 10) = false from rfl, Bool.false_eq_true,
      if_false, findIdx?_start _ (escNl v ++ 10 :: T) 1, hj, Option.map_some']
  have hffe : findFieldEnd (lineOf k v ++ T) 0 ((lineOf k v ++ T).length + 1) =
      some (k.length + 1 + (escNl v).length) := by
    have hshp : lineOf k v ++ T = (k ++ [32]) ++ escNl v ++ 10 :: T := by
      rw [lineOf_shape]; simp
    rw [hshp, findFieldEnd_line v (k ++ [32]) T _ (by simp) (by
        intro x hx
        rw [List.drop_append_of_le_length (List.length_pos.mpr hkne)] at hx
        rcases List.mem_append.mp hx with h | h
        · exact fun hx10 => hk10 (hx10 ▸ List.mem_of_mem_drop h)
        · simp only [List.mem_singleton] at h
          omega) hT32 hTne (by
        simp only [hshp, List.length_append, List.length_cons]
        have := escNl_length_ge v
        omega)]
    simp only [List.length_append, List.length_cons, List.length_nil,
      Option.some.injEq]
  rw [kvlm_parse_go]
  simp only [hspc, hnl, hffe]
  rw [if_neg (by
    rintro (h | ⟨-, h⟩)
    · exact Option.noConfusion h
    · have := h k.length rfl (j + 1 + k.length) rfl
      omega)]
  have hkey : (lineOf k v ++ T).take k.length = k := by
    rw [lineOf_shape, show k ++ 32 :: (escNl v ++ 10 :: T) =
      k ++ (32 :: (escNl v ++ 10 :: T)) from rfl]
    exact List.take_left k _
  have hval : unescNl (((lineOf k v ++ T).drop (k.length + 1)).take
      ((k.length + 1 + (escNl v).length) - (k.length + 1))) = v := by
    have hshp : lineOf k v ++ T = (k ++ [32]) ++ (escNl v ++ 10 :: T) := by
      rw [lineOf_shape]; simp
    rw [hshp, show k.length + 1 = (k ++ [32]).length from by simp,
      List.drop_left, Nat.add_sub_cancel_left,
      List.take_left (escNl v) _, unescNl_escNl]
  have hdropall : (lineOf k v ++ T).drop (k.length + 1 + (escNl v).length + 1) =
      T := by
    rw [show k.length + 1 + (escNl v).length + 1 = (lineOf k v).length from by
      simp [lineOf]; omega]
    exact List.drop_left _ _
  rw [hkey, hval, hdropall]

theorem kvlm_parse_go_msg (fields : List (Bytes × KvlmVal)) (f : Nat)
    (msg : Bytes) :
    kvlm_parse_go fields (f + 1) (10 :: msg) = some ⟨fields, msg⟩ := by
  have hnl : (10 :: msg).findIdx? (· = 10) = some 0 := by
    rw [List.findIdx?_cons]; simp
  have hspc : (10 :: msg).findIdx? (· = 32) =
      (msg.findIdx? (· = 32)).map (· + 1) := by
    rw [List.findIdx?_cons]
    simp only [show decide ((10 : Nat) = 32) = false from rfl,
      Bool.false_eq_true, if_false]
    exact findIdx?_start _ msg 1
  rw [kvlm_parse_go]
  simp only [hspc, hnl]
  rw [if_pos (by
    cases hm : msg.findIdx? (· = 32) with
    | none => exact Or.inl rfl
    | some j =>
      refine Or.inr ⟨by simp, ?_⟩
      intro x hx n hn
      simp only [Option.map_some', Option.mem_def, Option.some.injEq] at hx hn
      omega)]
  simp

theorem linesOf_cons (o : Bytes × Bytes) (occs : List (Bytes × Bytes)) :
    linesOf (o :: occs) = lineOf o.1 o.2 ++ linesOf occs := by
  simp [linesOf]

theorem linesOf_msg_head_ne_32 (occs : List (Bytes × Bytes)) (msg : Bytes)
    (hk : ∀ o ∈ occs, KvlmKeyWF o.1) :
    (linesOf occs ++ 10 :: msg).head? ≠ some 32 := by
  cases occs with
  | nil => simp [linesOf]
  | cons o rest =>
    obtain ⟨k, v⟩ := o
    obtain ⟨hkne, hk32, -⟩ := hk (k, v) (by simp)
    obtain ⟨c0, k', rfl⟩ : ∃ c0 k', k = c0 :: k' := by
      cases k with
      | nil => exact absurd rfl hkne
      | cons a as => exact ⟨a, as, rfl⟩
    have hhead : (linesOf ((c0 :: k', v) :: rest) ++ 10 :: msg).head? = some c0 := by
      rw [linesOf_cons]
      simp [lineOf]
    rw [hhead]
    intro hcontra
    exact hk32 (by
      rw [show (32 : Nat) = c0 from (Option.some.inj hcontra).symm]
      simp)

theorem occs_length_le_linesOf (occs : List (Bytes × Bytes)) :
    occs.length ≤ (linesOf occs).length := by
  induction occs with
  | nil => simp [linesOf]
  | cons o rest ih =>
    rw [linesOf_cons]
    simp only [List.length_append, List.length_cons, lineOf, List.length_nil]
    omega

theorem kvlm_parse_lines (occs : List (Bytes × Bytes)) (msg : Bytes) :
    ∀ (fields : List (Bytes × KvlmVal)) (f : Nat),
    (∀ o ∈ occs, KvlmKeyWF o.1) → occs.length + 1 ≤ f →
    kvlm_parse_go fields f (linesOf occs ++ 10 :: msg) =
      some ⟨foldAdd fields occs, msg⟩ := by
  induction occs with
  | nil =>
    intro fields f _ hf
    obtain ⟨f', rfl⟩ : ∃ f', f = f' + 1 := ⟨f - 1, by omega⟩
    rw [show linesOf [] ++ 10 :: msg = 10 :: msg from by simp [linesOf]]
    exact kvlm_parse_go_msg fields f' msg
  | cons o rest ih =>
    intro fields f hk hf
    obtain ⟨f', rfl⟩ : ∃ f', f = f' + 1 := ⟨f - 1, by omega⟩
    obtain ⟨k, v⟩ := o
    rw [linesOf_cons, List.append_assoc,
      kvlm_parse_go_step fields f' k v _ (hk (k, v) (by simp))
        (linesOf_msg_head_ne_32 rest msg (fun o ho => hk o (by simp [ho])))
        (by simp),
      ih (kvlmAdd fields k v) f' (fun o ho => hk o (by simp [ho]))
        (by simp at hf; omega)]
    rfl

theorem kvlmAdd_not_mem {fields : List (Bytes × KvlmVal)} {k : Bytes}
    (h : k ∉ fields.map Prod.fst) (v : Bytes) :
    kvlmAdd fields k v = fields ++ [(k, .one v)] := by
  induction fields with
  | nil => rfl
  | cons kv rest ih =>
    obtain ⟨k0, val⟩ := kv
    simp only [List.map_cons, List.mem_cons] at h
    rw [kvlmAdd, if_neg (fun heq => h (Or.inl heq.symm)),
      ih (fun hm => h (Or.inr hm))]
    rfl

theorem kvlmAdd_append {fields : List (Bytes × KvlmVal)} {k : Bytes}
    (h : k ∉ fields.map Prod.fst) (val : KvlmVal) (v : Bytes) :
    kvlmAdd (fields ++ [(k, val)]) k v = fields ++ [(k, pushVal val v)] := by
  induction fields with
  | nil =>
    rw [List.nil_append, kvlmAdd, if_pos rfl]
    cases val <;> rfl
  | cons kv rest ih =>
    obtain ⟨k0, val0⟩ := kv
    simp only [List.map_cons, List.mem_cons] at h
    rw [List.cons_append, kvlmAdd, if_neg (fun heq => h (Or.inl heq.symm)),
      ih (fun hm => h (Or.inr hm))]
    rfl

theorem foldAdd_push (k : Bytes) :
    ∀ (vs : List Bytes) (acc : List (Bytes × KvlmVal)) (val : KvlmVal),
    k ∉ acc.map Prod.fst →
    foldAdd (acc ++ [(k, val)]) (vs.map fun v => (k, v)) =
      acc ++ [(k, vs.foldl pushVal val)]
  | [], acc, val, _ => rfl
  | v :: vs, acc, val, h => by
    rw [List.map_cons, show foldAdd (acc ++ [(k, val)]) ((k, v) :: vs.map (fun v => (k, v))) =
      foldAdd (kvlmAdd (acc ++ [(k, val)]) k v) (vs.map fun v => (k, v)) from rfl,
      kvlmAdd_append h, foldAdd_push k vs acc (pushVal val v) h]
    rfl

theorem foldl_push_many : ∀ (t : List Bytes) (l : List Bytes),
    t.foldl pushVal (.many l) = .many (l ++ t)
  | [], l => by simp
  | c :: t, l => by
    rw [List.foldl_cons, show pushVal (.many l) c = .many (l ++ [c]) from rfl,
      foldl_push_many t (l ++ [c])]
    simp

theorem valList_collapse (val : KvlmVal) (hWF : KvlmValWF val) :
    ∃ v0 vs, kvlmValList val = v0 :: vs ∧ vs.foldl pushVal (.one v0) = val := by
  cases val with
  | one v => exact ⟨v, [], rfl, rfl⟩
  | many vs =>
    obtain ⟨a, b, t, rfl⟩ : ∃ a b t, vs = a :: b :: t := by
      cases vs with
      | nil => simp [KvlmValWF] at hWF
      | cons a vs' =>
        cases vs' with
        | nil => simp [KvlmValWF] at hWF
        | cons b t => exact ⟨a, b, t, rfl⟩
    refine ⟨a, b :: t, rfl, ?_⟩
    rw [List.foldl_cons, show pushVal (.one a) b = .many [a, b] from rfl,
      foldl_push_many t [a, b]]
    rfl

theorem foldAdd_occsOf : ∀ (fields acc : List (Bytes × KvlmVal)),
    (acc.map Prod.fst ++ fields.map Prod.fst).Nodup →
    (∀ kv ∈ fields, KvlmValWF kv.2) →
    foldAdd acc (occsOf fields) = acc ++ fields
  | [], acc, _, _ => by simp [occsOf, foldAdd]
  | (k, val) :: rest, acc, hnd, hWF => by
    have hkacc : k ∉ acc.map Prod.fst := by
      rw [List.nodup_append] at hnd
      intro hmem
      exact hnd.2.2 hmem (by simp)
    obtain ⟨v0, vs, hvl, hcollapse⟩ := valList_collapse val (hWF (k, val) (by simp))
    have hsplit : occsOf ((k, val) :: rest) =
        ((kvlmValList val).map fun v => (k, v)) ++ occsOf rest := by
      simp [occsOf]
    rw [hsplit, show foldAdd acc (((kvlmValList val).map fun v => (k, v)) ++ occsOf rest) =
      foldAdd (foldAdd acc ((kvlmValList val).map fun v => (k, v))) (occsOf rest) from
      List.foldl_append .., hvl, List.map_cons,
      show foldAdd acc ((k, v0) :: vs.map fun v => (k, v)) =
        foldAdd (kvlmAdd acc k v0) (vs.map fun v => (k, v)) from rfl,
      kvlmAdd_not_mem hkacc v0, foldAdd_push k vs acc (.one v0) hkacc, hcollapse,
      foldAdd_occsOf rest (acc ++ [(k, val)]) (by
        simp only [List.map_append, List.map_cons, List.map_nil] at hnd ⊢
        rw [List.append_assoc]
        simpa using hnd) (fun kv hkv => hWF kv (by simp [hkv]))]
    simp

theorem kvlm_serialize_eq (K : Kvlm) :
    kvlm_serialize K = linesOf (occsOf K.fields) ++ 10 :: K.message := by
  rw [kvlm_serialize, linesOf, occsOf, List.flatMap_assoc,
    show (10 : Nat) :: K.message = [10] ++ K.message from rfl,
    ← List.append_assoc]
  congr 2
  refine congrArg K.fields.flatMap (funext fun kv => ?_)
  rw [List.flatMap_map]
  simp [lineOf]

theorem kvlm_parse_serialize (K : Kvlm) (hWF : KvlmWF K) :
    kvlm_parse (kvlm_serialize K) = some K := by
  obtain ⟨hnd, hkv⟩ := hWF
  have hocc : ∀ o ∈ occsOf K.fields, KvlmKeyWF o.1 := by
    intro o ho
    rw [occsOf, List.mem_flatMap] at ho
    obtain ⟨kv, hkv2, ho2⟩ := ho
    rw [List.mem_map] at ho2
    obtain ⟨v, -, rfl⟩ := ho2
    exact (hkv kv hkv2).1
  rw [kvlm_parse, kvlm_serialize_eq,
    kvlm_parse_lines (occsOf K.fields) K.message [] _ hocc (by
      have h1 := occs_length_le_linesOf (occsOf K.fields)
      simp only [List.length_append, List.length_cons]
      omega),
    show foldAdd [] (occsOf K.fields) = [] ++ K.fields from
      foldAdd_occsOf K.fields [] (by simpa using hnd)
        (fun kv h => (hkv kv h).2)]
  rfl

/-- C3: the commit/tag key-value-with-message codec round-trips
(`kvlm_parse (kvlm_serialize fields) = fields` for every well-formed field
mapping, including multi-line values and a repeated `parent` key), and
serialization is a fixed point: re-serializing the parse of any well-formed
serialized commit byte string reproduces it byte for byte. -/
theorem claim_C3_kvlm_roundtrip_and_fixed_point (K : Kvlm) (hWF : KvlmWF K) :
    kvlm_parse (kvlm_serialize K) = some K ∧
    ∀ b : Bytes, (∃ K0 : Kvlm, KvlmWF K0 ∧ b = kvlm_serialize K0) →
      (kvlm_parse b).map kvlm_serialize = some b := by
  refine ⟨kvlm_parse_serialize K hWF, ?_⟩
  rintro b ⟨K0, hWF0, rfl⟩
  rw [kvlm_parse_serialize K0 hWF0]
  rfl

/-- Witness for C3 at a concrete commit with a repeated `parent` field, a
multi-line value and a multi-line message. -/
theorem claim_C3_witness :
    kvlm_parse (kvlm_serialize kvlmExample) = some kvlmExample ∧
    (kvlm_parse (kvlm_serialize kvlmExample)).map kvlm_serialize =
      some (kvlm_serialize kvlmExample) := by
  have h := claim_C3_kvlm_roundtrip_and_fixed_point kvlmExample (by decide)
  exact ⟨h.1, h.2 (kvlm_serialize kvlmExample) ⟨kvlmExample, by decide, rfl⟩⟩

/-! ## Byte-string order and stable-sort lemmas -/

theorem bytesLe_cons_iff {a b : Nat} {as bs : Bytes} :
    bytesLe (a :: as) (b :: bs) = true ↔
      a < b ∨ (a = b ∧ bytesLe as bs = true) := by
  rw [bytesLe]
  by_cases h1 : a < b
  · simp [h1]
  · by_cases h2 : b < a
    · simp [h1, h2]
      omega
    · have hab : a = b := by omega
      simp [h1, h2, hab]

theorem bytesLe_total : ∀ a b : Bytes, bytesLe a b = true ∨ bytesLe b a = true
  | [], _ => Or.inl rfl
  | _ :: _, [] => Or.inr rfl
  | a :: as, b :: bs => by
    rcases Nat.lt_trichotomy a b with h | h | h
    · exact Or.inl (bytesLe_cons_iff.mpr (Or.inl h))
    · rcases bytesLe_total as bs with hr | hr
      · exact Or.inl (bytesLe_cons_iff.mpr (Or.inr ⟨h, hr⟩))
      · exact Or.inr (bytesLe_cons_iff.mpr (Or.inr ⟨h.symm, hr⟩))
    · exact Or.inr (bytesLe_cons_iff.mpr (Or.inl h))

theorem bytesLe_trans : ∀ a b c : Bytes, bytesLe a b = true →
    bytesLe b c = true → bytesLe a c = true
  | [], _, _, _, _ => rfl
  | _ :: _, [], _, h1, _ => by rw [bytesLe] at h1; exact absurd h1 (by simp)
  | _ :: _, _ :: _, [], _, h2 => by rw [bytesLe] at h2; exact absurd h2 (by simp)
  | a :: as, b :: bs, c :: cs, h1, h2 => by
    rcases bytesLe_cons_iff.mp h1 with hh1 | ⟨rfl, hr1⟩ <;>
      rcases bytesLe_cons_iff.mp h2 with hh2 | ⟨heq2, hr2⟩
    · exact bytesLe_cons_iff.mpr (Or.inl (by omega))
    · exact bytesLe_cons_iff.mpr (Or.inl (by omega))
    · exact bytesLe_cons_iff.mpr (Or.inl (by omega))
    · exact bytesLe_cons_iff.mpr (Or.inr ⟨heq2, bytesLe_trans as bs cs hr1 hr2⟩)

theorem bytesLe_antisymm : ∀ a b : Bytes, bytesLe a b = true →
    bytesLe b a = true → a = b
  | [], [], _, _ => rfl
  | [], _ :: _, _, h2 => by rw [bytesLe] at h2; exact absurd h2 (by simp)
  | _ :: _, [], h1, _ => by rw [bytesLe] at h1; exact absurd h1 (by simp)
  | a :: as, b :: bs, h1, h2 => by
    rcases bytesLe_cons_iff.mp h1 with hh1 | ⟨rfl, hr1⟩ <;>
      rcases bytesLe_cons_iff.mp h2 with hh2 | ⟨heq2, hr2⟩
    · omega
    · omega
    · omega
    · rw [bytesLe_antisymm as bs hr1 hr2]

theorem leafLe_total : ∀ a b : GitTreeLeaf, leafLe a b ∨ leafLe b a :=
  fun a b => bytesLe_total (tree_leaf_sort_key a) (tree_leaf_sort_key b)

theorem leafLe_trans : ∀ {a b c : GitTreeLeaf}, leafLe a b → leafLe b c →
    leafLe a c :=
  fun hab hbc => bytesLe_trans _ _ _ hab hbc

theorem sorted_perm_eq_of_key_inj :
    ∀ (l1 l2 : List GitTreeLeaf), l1.Perm l2 → List.Sorted leafLe l1 →
    List.Sorted leafLe l2 →
    (∀ x ∈ l1, ∀ y ∈ l1, tree_leaf_sort_key x = tree_leaf_sort_key y → x = y) →
    l1 = l2
  | [], l2, hp, _, _, _ => by rw [hp.symm.eq_nil]
  | a :: t1, l2, hp, hs1, hs2, hinj => by
    obtain ⟨b, t2, rfl⟩ : ∃ b t2, l2 = b :: t2 := by
      cases l2 with
      | nil => exact absurd hp.eq_nil (by simp)
      | cons b t2 => exact ⟨b, t2, rfl⟩
    rw [List.sorted_cons] at hs1 hs2
    have hab : a = b := by
      have hamem : a ∈ b :: t2 := hp.mem_iff.mp (by simp)
      have hbmem : b ∈ a :: t1 := hp.mem_iff.mpr (by simp)
      rcases List.mem_cons.mp hamem with h | hat2
      · exact h
      rcases List.mem_cons.mp hbmem with h | hbt1
      · exact h.symm
      have h1 : leafLe a b := hs1.1 b hbt1
      have h2 : leafLe b a := hs2.1 a hat2
      exact hinj a (by simp) b (by simp [hbt1])
        (bytesLe_antisymm _ _ h1 h2)
    subst hab
    rw [sorted_perm_eq_of_key_inj t1 t2 hp.cons_inv hs1.2 hs2.2
      (fun x hx y hy hk => hinj x (by simp [hx]) y (by simp [hy]) hk)]

theorem insertionSort_sorted (l : List GitTreeLeaf) :
    List.Sorted leafLe (List.insertionSort leafLe l) :=
  @List.sorted_insertionSort _ leafLe _ ⟨leafLe_total⟩
    ⟨fun _ _ _ => leafLe_trans⟩ l

theorem tree_serialize_eq_of_perm_of_key_inj (l1 l2 : List GitTreeLeaf)
    (hperm : l1.Perm l2)
    (hinj : ∀ x ∈ l1, ∀ y ∈ l1,
      tree_leaf_sort_key x = tree_leaf_sort_key y → x = y) :
    tree_serialize l1 = tree_serialize l2 := by
  rw [tree_serialize, tree_serialize, sorted_perm_eq_of_key_inj
    (List.insertionSort leafLe l1) (List.insertionSort leafLe l2)
    ((List.perm_insertionSort leafLe l1).trans
      (hperm.trans (List.perm_insertionSort leafLe l2).symm))
    (insertionSort_sorted l1) (insertionSort_sorted l2)
    (fun x hx y hy hk => hinj x ((List.perm_insertionSort leafLe l1).mem_iff.mp hx)
      y ((List.perm_insertionSort leafLe l1).mem_iff.mp hy) hk)]

/-- Counterexample to C5 as stated: (a) a symlink entry (mode `120000`,
which does not start with `10`) sorts as if its name ended in `/`, not by
its bare name as the claim asserts for non-directory entries; (b) stable
sorting makes two lists with the same entry set but two distinct entries of
equal sort key serialize to different bytes. -/
theorem claim_C5_counterexample :
    (tree_leaf_sort_key ⟨s2b ("120000"), s2b ("a"), 5⟩ ≠
        (⟨s2b ("120000"), s2b ("a"), 5⟩ : GitTreeLeaf).path ∧
      tree_leaf_sort_key ⟨s2b ("120000"), s2b ("a"), 5⟩ =
        (⟨s2b ("120000"), s2b ("a"), 5⟩ : GitTreeLeaf).path ++ [47]) ∧
    ([(⟨s2b ("100644"), s2b ("a"), 1⟩ : GitTreeLeaf),
      ⟨s2b ("100644"), s2b ("a"), 2⟩].Perm
      [⟨s2b ("100644"), s2b ("a"), 2⟩, ⟨s2b ("100644"), s2b ("a"), 1⟩] ∧
     tree_serialize [⟨s2b ("100644"), s2b ("a"), 1⟩, ⟨s2b ("100644"), s2b ("a"), 2⟩] ≠
       tree_serialize [⟨s2b ("100644"), s2b ("a"), 2⟩, ⟨s2b ("100644"), s2b ("a"), 1⟩]) := by
  refine ⟨⟨by decide, by decide⟩, ?_, by decide⟩
  decide

/-- C5 as amended: the sort key appends `/` exactly when the mode does not
start with `10` (directories, symlinks and gitlinks alike), and two trees
with the same entry set in which distinct entries never share a sort key
serialize to identical bytes and hash identically. -/
theorem claim_C5_canonical_serialization :
    (∀ leaf : GitTreeLeaf, leaf.mode.take 2 ≠ [49, 48] →
      tree_leaf_sort_key leaf = leaf.path ++ [47]) ∧
    ∀ l1 l2 : List GitTreeLeaf, l1.Perm l2 →
      (∀ x ∈ l1, ∀ y ∈ l1,
        tree_leaf_sort_key x = tree_leaf_sort_key y → x = y) →
      tree_serialize l1 = tree_serialize l2 ∧
      ∀ h : Bytes → Nat,
        h (objectFrame (s2b ("tree")) (tree_serialize l1)) =
          h (objectFrame (s2b ("tree")) (tree_serialize l2)) := by
  refine ⟨fun leaf hm => by rw [tree_leaf_sort_key, if_neg hm], ?_⟩
  intro l1 l2 hperm hinj
  have he := tree_serialize_eq_of_perm_of_key_inj l1 l2 hperm hinj
  exact ⟨he, fun h => by rw [he]⟩

/-- Witness for the amended C5 at two permutations of a concrete two-entry
set with distinct sort keys. -/
theorem claim_C5_canonical_serialization_witness :
    tree_serialize [(⟨s2b ("100644"), s2b ("a"), 1⟩ : GitTreeLeaf),
        ⟨s2b ("040000"), s2b ("b"), 2⟩] =
      tree_serialize [⟨s2b ("040000"), s2b ("b"), 2⟩,
        ⟨s2b ("100644"), s2b ("a"), 1⟩] ∧
    bytesToNatBE (objectFrame (s2b ("tree"))
        (tree_serialize [(⟨s2b ("100644"), s2b ("a"), 1⟩ : GitTreeLeaf),
          ⟨s2b ("040000"), s2b ("b"), 2⟩])) =
      bytesToNatBE (objectFrame (s2b ("tree"))
        (tree_serialize [⟨s2b ("040000"), s2b ("b"), 2⟩,
          ⟨s2b ("100644"), s2b ("a"), 1⟩])) := by
  have h := (claim_C5_canonical_serialization.2
    [⟨s2b ("100644"), s2b ("a"), 1⟩, ⟨s2b ("040000"), s2b ("b"), 2⟩]
    [⟨s2b ("040000"), s2b ("b"), 2⟩, ⟨s2b ("100644"), s2b ("a"), 1⟩]
    (by decide) (by decide))
  exact ⟨h.1, h.2 bytesToNatBE⟩

/-! ## Numeric rendering/parsing lemmas -/

theorem natToBytesBE_length (n v : Nat) : (natToBytesBE n v).length = n := by
  induction n generalizing v with
  | zero => rfl
  | succ n ih => rw [natToBytesBE]; simp [ih]

theorem bytesToNatBE_append_one (l : Bytes) (b : Nat) :
    bytesToNatBE (l ++ [b]) = 256 * bytesToNatBE l + b := by
  rw [bytesToNatBE, bytesToNatBE, List.foldl_append]
  simp [Nat.mul_comm]

theorem bytesToNatBE_natToBytesBE (n v : Nat) (h : v < 256 ^ n) :
    bytesToNatBE (natToBytesBE n v) = v := by
  induction n generalizing v with
  | zero =>
    rw [show natToBytesBE 0 v = [] from rfl]
    simp [pow_zero] at h
    simp [bytesToNatBE]
    omega
  | succ n ih =>
    rw [natToBytesBE, bytesToNatBE_append_one, ih (v / 256) (by
      rw [pow_succ] at h
      exact Nat.div_lt_of_lt_mul (by omega))]
    omega

theorem natDigitsF_spec : ∀ (f v : Nat), v ≤ f →
    (∀ c ∈ natDigitsF f v, 48 ≤ c ∧ c ≤ 57) ∧
    decDigitsVal (natDigitsF f v) = v ∧ (v ≠ 0 → natDigitsF f v ≠ [])
  | 0, v, hv => by
    have : v = 0 := by omega
    subst this
    exact ⟨by simp [natDigitsF], by simp [natDigitsF, decDigitsVal], by simp⟩
  | f + 1, v, hv => by
    rw [natDigitsF]
    by_cases h0 : v = 0
    · subst h0
      exact ⟨by simp, by simp [decDigitsVal], by simp⟩
    · rw [if_neg h0]
      have hrec := natDigitsF_spec f (v / 10) (by omega)
      refine ⟨?_, ?_, by simp⟩
      · intro c hc
        rcases List.mem_append.mp hc with h | h
        · exact hrec.1 c h
        · simp only [List.mem_singleton] at h
          omega
      · rw [decDigitsVal, List.foldl_append, show List.foldl _ _ (natDigitsF f (v / 10)) =
          decDigitsVal (natDigitsF f (v / 10)) from rfl, hrec.2.1]
        simp
        omega

theorem natDecimal_spec (n : Nat) :
    (∀ c ∈ natDecimal n, 48 ≤ c ∧ c ≤ 57) ∧ decDigitsVal (natDecimal n) = n ∧
      natDecimal n ≠ [] := by
  rw [natDecimal]
  by_cases h0 : n = 0
  · subst h0
    exact ⟨by simp, by simp [decDigitsVal], by simp⟩
  · rw [if_neg h0, natDigits]
    have h := natDigitsF_spec n n (le_refl n)
    exact ⟨h.1, h.2.1, h.2.2 h0⟩

theorem pyParseNat_space_digits (d : Bytes) (hne : d ≠ [])
    (hdig : ∀ c ∈ d, 48 ≤ c ∧ c ≤ 57) :
    pyParseNat (32 :: d) = some (decDigitsVal d) := by
  obtain ⟨c0, d', rfl⟩ : ∃ c0 d', d = c0 :: d' := by
    cases d with
    | nil => exact absurd rfl hne
    | cons c0 d' => exact ⟨c0, d', rfl⟩
  have hc0 := hdig c0 (by simp)
  have hdw : (32 :: c0 :: d').dropWhile (fun x => decide (x = 32)) = c0 :: d' := by
    rw [List.dropWhile_cons, if_pos (by simp), List.dropWhile_cons,
      if_neg (by simp; omega)]
  simp only [pyParseNat, hdw]
  rw [if_pos ⟨by simp, by
    rw [List.all_eq_true]
    intro c hc
    have := hdig c hc
    simp
    omega⟩]

/-! ## Tree codec round-trip lemmas -/

theorem tree_leaf_bytes_length (i : GitTreeLeaf) (h6 : i.mode.length = 6) :
    (tree_leaf_bytes i).length = i.path.length + 28 := by
  simp [tree_leaf_bytes, natToBytesBE_length, h6]
  omega

theorem tree_parse_one_at (pre : Bytes) (i : GitTreeLeaf) (rest : Bytes)
    (hWF : TreeLeafWF i) :
    tree_parse_one (pre ++ (tree_leaf_bytes i ++ rest)) pre.length =
      some (pre.length + (tree_leaf_bytes i).length, i) := by
  obtain ⟨hm6, hm32, hp0, hputf, hsha⟩ := hWF
  have hshape : pre ++ (tree_leaf_bytes i ++ rest) =
      (pre ++ i.mode) ++ 32 :: (i.path ++ 0 :: (natToBytesBE 20 i.sha ++ rest)) := by
    simp [tree_leaf_bytes]
  have hdrop0 : (pre ++ (tree_leaf_bytes i ++ rest)).drop pre.length =
      i.mode ++ 32 :: (i.path ++ 0 :: (natToBytesBE 20 i.sha ++ rest)) := by
    rw [hshape, List.drop_append_of_le_length (by simp),
      show (pre ++ i.mode).drop pre.length = i.mode from List.drop_left pre _]
  have hx : ((pre ++ (tree_leaf_bytes i ++ rest)).drop pre.length).findIdx?
      (· = 32) = some 6 := by
    rw [hdrop0, findIdx?_append_left_none (findIdx?_eq_byte_none hm32),
      List.findIdx?_cons]
    simp [hm6]
  rw [tree_parse_one, hx]
  simp only [Option.some.injEq]
  rw [if_pos (by right; omega)]
  have hmode0 : ((pre ++ (tree_leaf_bytes i ++ rest)).drop pre.length).take
      (pre.length + 6 - pre.length) = i.mode := by
    rw [show pre.length + 6 - pre.length = 6 from by omega, hdrop0, ← hm6,
      List.take_left i.mode _]
  rw [hmode0, if_neg (by omega)]
  have hdropx : (pre ++ (tree_leaf_bytes i ++ rest)).drop (pre.length + 6) =
      32 :: (i.path ++ 0 :: (natToBytesBE 20 i.sha ++ rest)) := by
    rw [hshape, show pre.length + 6 = (pre ++ i.mode).length from by simp [hm6],
      List.drop_left]
  have hy : ((pre ++ (tree_leaf_bytes i ++ rest)).drop (pre.length + 6)).findIdx?
      (· = 0) = some (i.path.length + 1) := by
    rw [hdropx, List.findIdx?_cons]
    simp only [show decide ((32 : Nat) = 0) = false from rfl, Bool.false_eq_true,
      if_false, findIdx?_start _ _ 1,
      findIdx?_append_left_none (findIdx?_eq_byte_none hp0), List.findIdx?_cons]
    simp
  simp only [hy]
  have hpath : ((pre ++ (tree_leaf_bytes i ++ rest)).drop (pre.length + 6 + 1)).take
      (pre.length + 6 + (i.path.length + 1) - (pre.length + 6 + 1)) = i.path := by
    rw [show pre.length + 6 + (i.path.length + 1) - (pre.length + 6 + 1) =
      i.path.length from by omega,
      show pre.length + 6 + 1 = (pre ++ i.mode ++ [32]).length from by simp [hm6],
      hshape, show (pre ++ i.mode) ++ 32 :: (i.path ++ 0 :: (natToBytesBE 20 i.sha ++ rest)) =
        (pre ++ i.mode ++ [32]) ++ (i.path ++ 0 :: (natToBytesBE 20 i.sha ++ rest)) from by simp,
      List.drop_left, List.take_left i.path _]
  rw [hpath, if_pos hputf]
  have hsha20 : ((pre ++ (tree_leaf_bytes i ++ rest)).drop
      (pre.length + 6 + (i.path.length + 1) + 1)).take 20 = natToBytesBE 20 i.sha := by
    rw [show pre.length + 6 + (i.path.length + 1) + 1 =
      (pre ++ i.mode ++ [32] ++ i.path ++ [0]).length from by simp [hm6]; omega,
      hshape, show (pre ++ i.mode) ++ 32 :: (i.path ++ 0 :: (natToBytesBE 20 i.sha ++ rest)) =
        (pre ++ i.mode ++ [32] ++ i.path ++ [0]) ++ (natToBytesBE 20 i.sha ++ rest) from by simp,
      List.drop_left, List.take_left' (natToBytesBE_length 20 i.sha)]
  rw [hsha20, bytesToNatBE_natToBytesBE 20 i.sha hsha,
    show pre.length + 6 + (i.path.length + 1) + 21 =
      pre.length + (tree_leaf_bytes i).length from by
        rw [tree_leaf_bytes_length i hm6]; omega]

theorem tree_serialize_items_cons (i : GitTreeLeaf) (rest : List GitTreeLeaf) :
    tree_serialize_items (i :: rest) =
      tree_leaf_bytes i ++ tree_serialize_items rest := by
  simp [tree_serialize_items]

theorem tree_leaf_bytes_pos (i : GitTreeLeaf) : 1 ≤ (tree_leaf_bytes i).length := by
  simp [tree_leaf_bytes]
  omega

theorem tree_serialize_items_length_ge (items : List GitTreeLeaf) :
    items.length ≤ (tree_serialize_items items).length := by
  induction items with
  | nil => simp [tree_serialize_items]
  | cons i rest ih =>
    rw [tree_serialize_items_cons]
    simp only [List.length_append, List.length_cons]
    have := tree_leaf_bytes_pos i
    omega

theorem tree_parse_go_serial : ∀ (items : List GitTreeLeaf) (pre : Bytes)
    (f : Nat), (∀ i ∈ items, TreeLeafWF i) → items.length < f →
    tree_parse_go (pre ++ tree_serialize_items items) f pre.length = some items
  | [], pre, f, _, hf => by
    obtain ⟨f', rfl⟩ : ∃ f', f = f' + 1 := ⟨f - 1, by omega⟩
    rw [show tree_serialize_items [] = [] from rfl, List.append_nil,
      tree_parse_go, if_neg (by omega)]
  | i :: rest, pre, f, hWF, hf => by
    obtain ⟨f', rfl⟩ : ∃ f', f = f' + 1 := ⟨f - 1, by omega⟩
    rw [tree_serialize_items_cons, tree_parse_go]
    rw [if_pos (by
      simp only [List.length_append]
      have := tree_leaf_bytes_pos i
      omega)]
    simp only [tree_parse_one_at pre i (tree_serialize_items rest) (hWF i (by simp))]
    rw [show pre.length + (tree_leaf_bytes i).length =
        (pre ++ tree_leaf_bytes i).length from by simp,
      show pre ++ (tree_leaf_bytes i ++ tree_serialize_items rest) =
        (pre ++ tree_leaf_bytes i) ++ tree_serialize_items rest from by simp,
      tree_parse_go_serial rest (pre ++ tree_leaf_bytes i) f'
        (fun j hj => hWF j (by simp [hj])) (by simp at hf; omega)]
    rfl

theorem tree_parse_serialize_items (items : List GitTreeLeaf)
    (hWF : ∀ i ∈ items, TreeLeafWF i) :
    tree_parse (tree_serialize_items items) = some items := by
  rw [tree_parse, show tree_serialize_items items =
    [] ++ tree_serialize_items items from rfl]
  exact tree_parse_go_serial items [] _ hWF (by
    have := tree_serialize_items_length_ge items
    simp only [List.nil_append, List.length_append]
    omega)

/-! ## Object envelope lemmas -/

theorem object_read_raw_framed (fmtB sizeB payload : Bytes) (hne : fmtB ≠ [])
    (h32 : 32 ∉ fmtB) (hgne : sizeB ≠ [])
    (hdig : ∀ c ∈ sizeB, 48 ≤ c ∧ c ≤ 57) :
    object_read_raw (fmtB ++ [32] ++ sizeB ++ [0] ++ payload) =
      if decDigitsVal sizeB ≠ payload.length then .error .badLength
      else
        match objectDeserialize fmtB payload with
        | none =>
          if fmtB = s2b ("blob") ∨ fmtB = s2b ("commit") ∨ fmtB = s2b ("tag") ∨
              fmtB = s2b ("tree") then .error .parseFail
          else .error .unknownType
        | some o => .ok o := by
  have hshape : fmtB ++ [32] ++ sizeB ++ [0] ++ payload =
      fmtB ++ 32 :: (sizeB ++ 0 :: payload) := by simp
  have hsize0 : 0 ∉ sizeB := fun hmem => by have := hdig 0 hmem; omega
  have hx : (fmtB ++ [32] ++ sizeB ++ [0] ++ payload).findIdx? (· = 32) =
      some fmtB.length := by
    rw [hshape, findIdx?_append_left_none (findIdx?_eq_byte_none h32),
      List.findIdx?_cons]
    simp
  have hdropx : (fmtB ++ [32] ++ sizeB ++ [0] ++ payload).drop fmtB.length =
      32 :: (sizeB ++ 0 :: payload) := by
    rw [hshape, List.drop_left]
  have hy : ((fmtB ++ [32] ++ sizeB ++ [0] ++ payload).drop fmtB.length).findIdx?
      (· = 0) = some (sizeB.length + 1) := by
    rw [hdropx, List.findIdx?_cons]
    simp only [show decide ((32 : Nat) = 0) = false from rfl, Bool.false_eq_true,
      if_false, findIdx?_start _ _ 1,
      findIdx?_append_left_none (findIdx?_eq_byte_none hsize0),
      List.findIdx?_cons]
    simp
  rw [object_read_raw]
  simp only [hx, hy]
  have hslice : ((fmtB ++ [32] ++ sizeB ++ [0] ++ payload).drop fmtB.length).take
      (fmtB.length + (sizeB.length + 1) - fmtB.length) = 32 :: sizeB := by
    rw [hdropx, show fmtB.length + (sizeB.length + 1) - fmtB.length =
      sizeB.length + 1 from by omega, List.take_succ_cons,
      List.take_left' rfl]
  rw [hslice, pyParseNat_space_digits sizeB hgne hdig]
  have hlen : (fmtB ++ [32] ++ sizeB ++ [0] ++ payload).length -
      (fmtB.length + (sizeB.length + 1)) - 1 = payload.length := by
    simp only [List.length_append, List.length_cons, List.length_nil]
    omega
  have htakex : (fmtB ++ [32] ++ sizeB ++ [0] ++ payload).take fmtB.length =
      fmtB := by
    rw [hshape, List.take_left' rfl]
  have hdropy : (fmtB ++ [32] ++ sizeB ++ [0] ++ payload).drop
      (fmtB.length + (sizeB.length + 1) + 1) = payload := by
    rw [show fmtB.length + (sizeB.length + 1) + 1 =
      (fmtB ++ [32] ++ sizeB ++ [0]).length from by simp; omega,
      show fmtB ++ [32] ++ sizeB ++ [0] ++ payload =
        (fmtB ++ [32] ++ sizeB ++ [0]) ++ payload from by simp,
      List.drop_left]
  rw [hlen, htakex, hdropy]

theorem store_lookup_append_of_none (store l2 : Store) (k : Nat)
    (h : store.lookup k = none) : (store ++ l2).lookup k = l2.lookup k := by
  induction store with
  | nil => simp
  | cons kv rest ih =>
    obtain ⟨k0, v0⟩ := kv
    by_cases hk : k == k0
    · exfalso
      simp only [List.lookup_cons, hk] at h
      exact Option.noConfusion h
    · simp only [Bool.not_eq_true] at hk
      simp only [List.cons_append, List.lookup_cons, hk] at h ⊢
      exact ih h

theorem objectDeserialize_serialize (o : GitObject) (hWF : SerialWF o) :
    objectDeserialize o.fmt o.serialize = some o := by
  cases o with
  | blob d =>
    simp only [objectDeserialize, GitObject.fmt, GitObject.serialize]
    rw [if_pos trivial]
  | commit k =>
    simp only [objectDeserialize, GitObject.fmt, GitObject.serialize]
    rw [if_pos trivial, kvlm_parse_serialize k hWF]
    rfl
  | tag k =>
    simp only [objectDeserialize, GitObject.fmt, GitObject.serialize]
    rw [if_pos trivial, kvlm_parse_serialize k hWF]
    rfl
  | tree items =>
    obtain ⟨hleaf, hsorted⟩ := hWF
    simp only [objectDeserialize, GitObject.fmt, GitObject.serialize]
    rw [if_pos trivial, tree_serialize, List.Sorted.insertionSort_eq hsorted,
      tree_parse_serialize_items items hleaf]
    rfl

theorem GitObject.fmt_ne_nil (o : GitObject) : o.fmt ≠ [] := by
  cases o <;> (simp only [GitObject.fmt]; decide)

theorem GitObject.fmt_no_space (o : GitObject) : 32 ∉ o.fmt := by
  cases o <;> (simp only [GitObject.fmt]; decide)

/-- C2: for every kind and every payload well-formed for that kind, writing
with `object_write` and reading the digest back with `object_read` returns
an object of the same kind whose serialized payload is the written payload.
The digest function is abstract; the store must not already bind the new
digest (the hash-collision-free assumption). -/
theorem claim_C2_object_write_read_roundtrip (h : Bytes → Nat) (store : Store)
    (o : GitObject) (hWF : SerialWF o)
    (hfresh : store.lookup (h (objectFrame o.fmt o.serialize)) = none) :
    (object_read (object_write h o store).2
        (object_write h o store).1).toOption.map GitObject.fmt = some o.fmt ∧
    (object_read (object_write h o store).2
        (object_write h o store).1).toOption.map GitObject.serialize =
      some o.serialize := by
  have hlk : (store ++ [(h (objectFrame o.fmt o.serialize),
      objectFrame o.fmt o.serialize)]).lookup
      (h (objectFrame o.fmt o.serialize)) =
      some (objectFrame o.fmt o.serialize) := by
    rw [store_lookup_append_of_none store _ _ hfresh]
    simp
  have hread : object_read (object_write h o store).2
      (object_write h o store).1 = .ok o := by
    rw [object_write]
    simp only [hfresh]
    rw [object_read]
    simp only [hlk]
    rw [objectFrame,
      object_read_raw_framed o.fmt (natDecimal o.serialize.length) o.serialize
        o.fmt_ne_nil o.fmt_no_space (natDecimal_spec o.serialize.length).2.2
        (natDecimal_spec o.serialize.length).1,
      if_neg (by rw [(natDecimal_spec o.serialize.length).2.1]; omega)]
    simp only [objectDeserialize_serialize o hWF]
  rw [hread]
  exact ⟨rfl, rfl⟩

/-- Witness for C2 at a concrete commit object in an empty store, with
`int.from_bytes` of the framed bytes as the digest function. -/
theorem claim_C2_object_write_read_roundtrip_witness :
    (object_read (object_write bytesToNatBE (.commit kvlmExample) []).2
        (object_write bytesToNatBE (.commit kvlmExample) []).1).toOption.map
        GitObject.fmt = some (GitObject.commit kvlmExample).fmt ∧
    (object_read (object_write bytesToNatBE (.commit kvlmExample) []).2
        (object_write bytesToNatBE (.commit kvlmExample) []).1).toOption.map
        GitObject.serialize = some (GitObject.commit kvlmExample).serialize :=
  claim_C2_object_write_read_roundtrip bytesToNatBE [] (.commit kvlmExample)
    (by decide) rfl

/-- C8: reading a stored object whose decimal header length disagrees with
the actual payload size fails with the `CorruptObject` error
(`Malformed object: bad length`) and never returns an object; the length
check precedes the dispatch on the kind tag, so this holds for every kind
tag, known or unknown. -/
theorem claim_C8_corrupt_length (store : Store) (sha : Nat)
    (fmtB sizeB payload : Bytes)
    (hstore : store.lookup sha = some (fmtB ++ [32] ++ sizeB ++ [0] ++ payload))
    (hne : fmtB ≠ []) (h32 : 32 ∉ fmtB) (hgne : sizeB ≠ [])
    (hdig : ∀ c ∈ sizeB, 48 ≤ c ∧ c ≤ 57)
    (hmis : decDigitsVal sizeB ≠ payload.length) :
    object_read store sha = .error .badLength ∧
    ∀ o : GitObject, object_read store sha ≠ .ok o := by
  have h1 : object_read store sha = .error .badLength := by
    rw [object_read]
    simp only [hstore]
    rw [object_read_raw_framed fmtB sizeB payload hne h32 hgne hdig,
      if_pos hmis]
  exact ⟨h1, fun o hc => by rw [h1] at hc; exact Except.noConfusion hc⟩

/-- Witness for C8: a stored blob claiming length 3 with a 2-byte payload. -/
theorem claim_C8_corrupt_length_witness :
    object_read [(5, s2b ("blob") ++ [32] ++ s2b ("3") ++ [0] ++ s2b ("ab"))] 5 =
      .error .badLength ∧
    object_read [(5, s2b ("blob") ++ [32] ++ s2b ("3") ++ [0] ++ s2b ("ab"))] 5 ≠
      .ok (.blob (s2b ("ab"))) := by
  have h := claim_C8_corrupt_length
    [(5, s2b ("blob") ++ [32] ++ s2b ("3") ++ [0] ++ s2b ("ab"))] 5
    (s2b ("blob")) (s2b ("3")) (s2b ("ab")) (by decide) (by decide) (by decide)
    (by decide) (by decide) (by decide)
  exact ⟨h.1, h.2 (.blob (s2b ("ab")))⟩

/-! ## Name-resolution claims -/

/-- C6: `object_find` fails with the `No such reference` error when name
resolution yields an empty candidate set (either `None` for a blank name or
an empty list), and fails with the `Ambiguous reference` error carrying the
full candidate list when resolution yields more than one candidate. -/
theorem claim_C6_find_notfound_and_ambiguous (r : RepoM) (name : Bytes)
    (fmt : Option Bytes) (follow : Bool) :
    ((object_resolve r name = none ∨ object_resolve r name = some []) →
      object_find r name fmt follow = .error .noSuchReference) ∧
    (∀ cands, object_resolve r name = some cands → 1 < cands.length →
      object_find r name fmt follow = .error (.ambiguousReference cands)) := by
  constructor
  · rintro (h | h) <;> rw [object_find.eq_def] <;> simp only [h]
    rw [if_pos trivial]
  · intro cands hc hlen
    rw [object_find.eq_def]
    simp only [hc]
    rw [if_neg (by
      intro he
      rw [he] at hlen
      simp at hlen), if_pos hlen]

/-- Witness for C6: in a repository holding two blobs with digests
`abcd...a1` and `abcd...a2`, the unresolvable name `ffff` fails with
`No such reference`, and the 4-hex prefix `abcd` fails with
`Ambiguous reference` listing both digests. -/
theorem claim_C6_witness :
    object_find repoC6 (s2b ("ffff")) none true = .error .noSuchReference ∧
    object_find repoC6 (s2b ("abcd")) none true =
      .error (.ambiguousReference
        [some (s2b ("abcd0000000000000000000000000000000000a1")),
         some (s2b ("abcd0000000000000000000000000000000000a2"))]) :=
  ⟨(claim_C6_find_notfound_and_ambiguous repoC6 (s2b ("ffff")) none true).1
      (Or.inr (by decide)),
   (claim_C6_find_notfound_and_ambiguous repoC6 (s2b ("abcd")) none true).2
      [some (s2b ("abcd0000000000000000000000000000000000a1")),
       some (s2b ("abcd0000000000000000000000000000000000a2"))]
      (by decide) (by decide)⟩

/-- Counterexample to C7 as stated: in a repository holding one blob,
`object_find` on its digest with expected kind `commit` and
`follow = true` returns the no-result outcome `ok none` — it does not fail
with a distinct `WrongKind` error as the claim asserts for the
`follow = true` case. -/
theorem claim_C7_counterexample :
    object_find repoC7 (s2b ("aaaa0000000000000000000000000000000000ff"))
        (some (s2b ("commit"))) true = .ok none ∧
    object_find repoC7 (s2b ("aaaa0000000000000000000000000000000000ff"))
        (some (s2b ("commit"))) true ≠
      .error .wrongKind := by
  exact ⟨by decide, by decide⟩

/-- C7 as amended: when the dereference chain reaches an object whose kind
does not match the expected kind and that admits no legal dereference step
(it is not a tag, and it steps from a commit only when a tree is
expected), `object_find`'s loop returns no digest — `ok none`, the
`NotFound` outcome — identically for `follow = false` and for
`follow = true`; no distinct `WrongKind` failure occurs. -/
theorem claim_C7_mismatch_returns_none (r : RepoM) (fmtB : Bytes) (f : Nat)
    (sha : Bytes) (obj : GitObject)
    (hread : object_read_hex r sha = .ok obj) (hne : obj.fmt ≠ fmtB)
    (hnotag : obj.fmt ≠ s2b ("tag"))
    (hnocommit : ¬(obj.fmt = s2b ("commit") ∧ fmtB = s2b ("tree"))) :
    ∀ follow : Bool, objectFindLoop r fmtB follow (f + 1) sha = .ok none := by
  intro follow
  rw [objectFindLoop]
  simp only [hread]
  rw [if_neg hne]
  cases follow with
  | false => rw [if_pos rfl]
  | true =>
    rw [if_neg (by simp)]
    cases obj with
    | blob d => rfl
    | tree items => rfl
    | tag k => exact absurd (by simp [GitObject.fmt]) hnotag
    | commit k =>
      have hfmt : fmtB ≠ s2b ("tree") := fun h =>
        hnocommit ⟨by simp [GitObject.fmt], h⟩
      simp only [if_neg hfmt]

/-- Witness for the amended C7 at the one-blob repository, expected kind
`commit`, for both values of `follow`. -/
theorem claim_C7_mismatch_returns_none_witness :
    objectFindLoop repoC7 (s2b ("commit")) false 2
        (s2b ("aaaa0000000000000000000000000000000000ff")) = .ok none ∧
    objectFindLoop repoC7 (s2b ("commit")) true 2
        (s2b ("aaaa0000000000000000000000000000000000ff")) = .ok none :=
  ⟨claim_C7_mismatch_returns_none repoC7 (s2b ("commit")) 1
      (s2b ("aaaa0000000000000000000000000000000000ff"))
      (.blob (s2b ("hi"))) (by decide) (by decide) (by decide) (by decide) false,
   claim_C7_mismatch_returns_none repoC7 (s2b ("commit")) 1
      (s2b ("aaaa0000000000000000000000000000000000ff"))
      (.blob (s2b ("hi"))) (by decide) (by decide) (by decide) (by decide) true⟩

/-! ## Bitwise arithmetic for the index codec -/

theorem lor_eq_add_of_dvd (k : Nat) :
    ∀ a b : Nat, 2 ^ k ∣ a → b < 2 ^ k → a ||| b = a + b := by
  induction k with
  | zero =>
    intro a b _ hb
    have hb1 : b < 1 := by simpa using hb
    have hb0 : b = 0 := by omega
    subst hb0
    exact Nat.or_zero a
  | succ k ih =>
    intro a b ha hb
    obtain ⟨q, rfl⟩ := ha
    have hbit : (2 ^ (k + 1) * q) = Nat.bit false (2 ^ k * q) := by
      rw [Nat.bit_val, pow_succ]
      simp
      ring
    have hd2 : b.div2 < 2 ^ k := by
      rw [Nat.div2_val]
      rw [pow_succ] at hb
      omega
    have key : 2 ^ (k + 1) * q ||| b
        = Nat.bit (false || b.bodd) (2 ^ k * q ||| b.div2) := by
      conv_lhs => rw [hbit, ← Nat.bit_decomp b]
      exact Nat.lor_bit false (2 ^ k * q) b.bodd b.div2
    rw [key, Nat.bit_val, ih (2 ^ k * q) b.div2 ⟨q, rfl⟩ hd2]
    have hb2 : b.bodd.toNat = b % 2 := (Nat.mod_two_of_bodd b).symm
    simp only [Bool.false_or]
    rw [hb2, Nat.div2_val, pow_succ]
    have he : 2 ^ k * 2 * q = 2 * (2 ^ k * q) := by ring
    omega

theorem and_two_pow_eq (x i : Nat) : x &&& 2 ^ i = x / 2 ^ i % 2 * 2 ^ i := by
  rw [Nat.and_two_pow, Nat.testBit_to_div_mod]
  rcases Nat.mod_two_eq_zero_or_one (x / 2 ^ i) with h | h <;> simp [h]

theorem mode_compose (mt p : Nat) (hp : p < 4096) :
    Nat.lor (mt <<< 12) p = mt * 4096 + p := by
  have h := lor_eq_add_of_dvd 12 (mt * 2 ^ 12) p ⟨mt, mul_comm _ _⟩
    (by rw [show (2:Nat) ^ 12 = 4096 from by norm_num]; exact hp)
  rw [Nat.shiftLeft_eq]
  rw [show (2:Nat) ^ 12 = 4096 from by norm_num] at h
  exact h

theorem flags_compose (A st nl : Nat) (hA : A = 0 ∨ A = 32768)
    (hst : st = 0 ∨ st = 4096 ∨ st = 8192 ∨ st = 12288) (hnl : nl < 4096) :
    Nat.lor (Nat.lor A st) nl = A + st + nl := by
  have h1 : Nat.lor A st = A + st := by
    rcases hA with rfl | rfl <;> rcases hst with rfl | rfl | rfl | rfl <;> decide
  have hd : (2:Nat) ^ 12 ∣ A + st := by
    rcases hA with rfl | rfl <;> rcases hst with rfl | rfl | rfl | rfl <;> decide
  rw [h1]
  exact lor_eq_add_of_dvd 12 (A + st) nl hd
    (by rw [show (2:Nat) ^ 12 = 4096 from by norm_num]; exact hnl)

theorem flags_extract (A st nl : Nat) (hA : A = 0 ∨ A = 32768)
    (hst : st = 0 ∨ st = 4096 ∨ st = 8192 ∨ st = 12288) (hnl : nl < 4096) :
    (A + st + nl) &&& 32768 = A ∧ (A + st + nl) &&& 16384 = 0 ∧
    (A + st + nl) &&& 12288 = st ∧ (A + st + nl) &&& 4095 = nl := by
  refine ⟨?_, ?_, ?_, ?_⟩
  · rw [show (32768:Nat) = 2 ^ 15 from by norm_num, and_two_pow_eq]
    have hq : (A + st + nl) / 2 ^ 15 % 2 = A / 32768 := by
      rw [show (2:Nat) ^ 15 = 32768 from by norm_num]
      rcases hA with rfl | rfl <;> rcases hst with rfl | rfl | rfl | rfl <;> omega
    rw [hq]
    rcases hA with rfl | rfl <;> norm_num
  · rw [show (16384:Nat) = 2 ^ 14 from by norm_num, and_two_pow_eq]
    have hq : (A + st + nl) / 2 ^ 14 % 2 = 0 := by
      rw [show (2:Nat) ^ 14 = 16384 from by norm_num]
      rcases hA with rfl | rfl <;> rcases hst with rfl | rfl | rfl | rfl <;> omega
    rw [hq]
    simp
  · rw [show (12288:Nat) = 2 ^ 13 ||| 2 ^ 12 from by decide, Nat.and_or_distrib_left,
      and_two_pow_eq, and_two_pow_eq]
    have h13 : (A + st + nl) / 2 ^ 13 % 2 = st / 8192 % 2 := by
      rw [show (2:Nat) ^ 13 = 8192 from by norm_num]
      rcases hA with rfl | rfl <;> rcases hst with rfl | rfl | rfl | rfl <;> omega
    have h12 : (A + st + nl) / 2 ^ 12 % 2 = st / 4096 % 2 := by
      rw [show (2:Nat) ^ 12 = 4096 from by norm_num]
      rcases hA with rfl | rfl <;> rcases hst with rfl | rfl | rfl | rfl <;> omega
    rw [h13, h12]
    rcases hst with rfl | rfl | rfl | rfl <;> decide
  · rw [show (4095:Nat) = 2 ^ 12 - 1 from by norm_num,
      Nat.and_pow_two_sub_one_eq_mod, show (2:Nat) ^ 12 = 4096 from by norm_num]
    rcases hA with rfl | rfl <;> rcases hst with rfl | rfl | rfl | rfl <;> omega

theorem mode_extract (mt p : Nat) (hmt : mt < 16) (hp : p < 512) :
    (mt * 4096 + p) >>> 12 = mt ∧ (mt * 4096 + p) &&& 511 = p := by
  constructor
  · rw [Nat.shiftRight_eq_div_pow, show (2:Nat) ^ 12 = 4096 from by norm_num]
    omega
  · rw [show (511:Nat) = 2 ^ 9 - 1 from by norm_num,
      Nat.and_pow_two_sub_one_eq_mod, show (2:Nat) ^ 9 = 512 from by norm_num]
    omega

/-! ## Lower-case hex round-trip (`format(v, "040x")` vs `int(s, 16)`) -/

theorem hexDigitVal_lt (c : Nat) (h : isLowerHexByte c = true) :
    hexDigitVal c < 16 := by
  simp [isLowerHexByte] at h
  unfold hexDigitVal
  split_ifs <;> omega

theorem hexDigitChar_val (c : Nat) (h : isLowerHexByte c = true) :
    hexDigitChar (hexDigitVal c) = c := by
  simp [isLowerHexByte] at h
  unfold hexDigitVal hexDigitChar
  split_ifs <;> omega

theorem foldl_hex_split : ∀ (b : Bytes) (acc : Nat),
    b.foldl (fun a c => a * 16 + hexDigitVal c) acc
      = acc * 16 ^ b.length + b.foldl (fun a c => a * 16 + hexDigitVal c) 0 := by
  intro b
  induction b with
  | nil => intro acc; simp
  | cons c t ih =>
    intro acc
    rw [List.foldl_cons, List.foldl_cons, ih (acc * 16 + hexDigitVal c),
      ih (0 * 16 + hexDigitVal c)]
    simp only [List.length_cons, pow_succ]
    ring

theorem hexVal_lt (b : Bytes) (h : ∀ c ∈ b, isLowerHexByte c = true) :
    hexVal b < 16 ^ b.length := by
  induction b with
  | nil => simp [hexVal]
  | cons c t ih =>
    simp only [hexVal, List.foldl_cons] at *
    rw [foldl_hex_split]
    have hd : hexDigitVal c < 16 := hexDigitVal_lt c (h c (by simp))
    have ht := ih (fun x hx => h x (by simp [hx]))
    simp only [Nat.zero_mul, Nat.zero_add, List.length_cons, pow_succ]
    calc hexDigitVal c * 16 ^ t.length
          + List.foldl (fun a c => a * 16 + hexDigitVal c) 0 t
        < hexDigitVal c * 16 ^ t.length + 16 ^ t.length :=
          Nat.add_lt_add_left ht _
      _ ≤ 15 * 16 ^ t.length + 16 ^ t.length :=
          Nat.add_le_add_right (Nat.mul_le_mul_right _ (by omega)) _
      _ = 16 ^ t.length * 16 := by ring

theorem hexVal_snoc (xs : Bytes) (c : Nat) :
    hexVal (xs ++ [c]) = 16 * hexVal xs + hexDigitVal c := by
  simp only [hexVal, List.foldl_append, List.foldl_cons, List.foldl_nil]
  ring

theorem hexVal_ge (xs : Bytes) (hne : xs ≠ []) (hh : xs.head? ≠ some 48)
    (hlow : ∀ c ∈ xs, isLowerHexByte c = true) :
    16 ^ (xs.length - 1) ≤ hexVal xs := by
  cases xs with
  | nil => exact absurd rfl hne
  | cons c t =>
    simp only [hexVal, List.foldl_cons]
    rw [foldl_hex_split]
    have hc48 : c ≠ 48 := by
      intro e
      exact hh (by rw [e]; rfl)
    have hd : 1 ≤ hexDigitVal c := by
      have hc := hlow c (by simp)
      simp [isLowerHexByte] at hc
      unfold hexDigitVal
      split_ifs <;> omega
    simp only [List.length_cons, Nat.add_sub_cancel, Nat.zero_mul, Nat.zero_add]
    have h1 : 16 ^ t.length ≤ hexDigitVal c * 16 ^ t.length :=
      Nat.le_mul_of_pos_left _ (by omega)
    omega

theorem hexDigitsF_render : ∀ (xs : Bytes) (f : Nat),
    (∀ c ∈ xs, isLowerHexByte c = true) → xs.head? ≠ some 48 →
    hexVal xs ≤ f → hexDigitsF f (hexVal xs) = xs := by
  intro xs
  induction xs using List.reverseRecOn with
  | nil =>
    intro f _ _ _
    cases f with
    | zero => rfl
    | succ f => simp [hexVal, hexDigitsF]
  | append_singleton xs c ih =>
    intro f hlow hh hf
    rw [hexVal_snoc] at hf ⊢
    by_cases hzero : 16 * hexVal xs + hexDigitVal c = 0
    · have hx0 : hexVal xs = 0 := by omega
      have hd0 : hexDigitVal c = 0 := by omega
      have hc : isLowerHexByte c = true := hlow c (by simp)
      have hc48 : c = 48 := by
        simp [isLowerHexByte] at hc
        unfold hexDigitVal at hd0
        split_ifs at hd0 <;> omega
      cases xs with
      | nil => exact absurd (by rw [hc48]; rfl) hh
      | cons a t =>
        have hge := hexVal_ge (a :: t) (by simp)
          (by simpa using hh)
          (fun x hx => hlow x (List.mem_append_left _ hx))
        have hp : (0:Nat) < 16 ^ ((a :: t).length - 1) := pow_pos (by omega) _
        omega
    · cases f with
      | zero => omega
      | succ f =>
        have hstep : hexDigitsF (f + 1) (16 * hexVal xs + hexDigitVal c)
            = if 16 * hexVal xs + hexDigitVal c = 0 then []
              else hexDigitsF f ((16 * hexVal xs + hexDigitVal c) / 16)
                ++ [hexDigitChar ((16 * hexVal xs + hexDigitVal c) % 16)] := rfl
        rw [hstep, if_neg hzero]
        have hd16 : hexDigitVal c < 16 := hexDigitVal_lt c (hlow c (by simp))
        have hdiv : (16 * hexVal xs + hexDigitVal c) / 16 = hexVal xs := by omega
        have hmod : (16 * hexVal xs + hexDigitVal c) % 16 = hexDigitVal c := by
          omega
        rw [hdiv, hmod, hexDigitChar_val c (hlow c (by simp))]
        have hh' : xs.head? ≠ some 48 := by
          cases xs with
          | nil => simp
          | cons a t => simpa using hh
        rw [ih f (fun x hx => hlow x (List.mem_append_left _ hx)) hh' (by omega)]

theorem dropWhile_head_not {p : Nat → Bool} : ∀ (l : Bytes) (x : Nat),
    (l.dropWhile p).head? = some x → p x = false := by
  intro l
  induction l with
  | nil => intro x h; simp [List.dropWhile] at h
  | cons c t ih =>
    intro x h
    rw [List.dropWhile_cons] at h
    by_cases hc : p c
    · rw [if_pos hc] at h
      exact ih x h
    · rw [if_neg hc] at h
      simp only [List.head?_cons, Option.some.injEq] at h
      subst h
      simpa using hc

theorem hexVal_zeros_append (z b' : Bytes) (hz : ∀ c ∈ z, c = 48) :
    hexVal (z ++ b') = hexVal b' := by
  induction z with
  | nil => simp
  | cons c t ih =>
    have hc : c = 48 := hz c (by simp)
    subst hc
    rw [List.cons_append]
    simp only [hexVal, List.foldl_cons] at *
    rw [show (0 * 16 + hexDigitVal 48 : Nat) = 0 from rfl]
    exact ih (fun x hx => hz x (by simp [hx]))

theorem hexRender40_hexVal (b : Bytes) (hlen : b.length = 40)
    (hlow : ∀ c ∈ b, isLowerHexByte c = true) :
    hexRender40 (hexVal b) = b := by
  have hsplit : b.takeWhile (fun c => decide (c = 48))
      ++ b.dropWhile (fun c => decide (c = 48)) = b :=
    List.takeWhile_append_dropWhile _ _
  have hz48 : ∀ c ∈ b.takeWhile (fun c => decide (c = 48)), c = 48 := by
    intro c hc
    have := List.mem_takeWhile_imp hc
    simpa using this
  have hval : hexVal b = hexVal (b.dropWhile (fun c => decide (c = 48))) := by
    conv_lhs => rw [← hsplit]
    exact hexVal_zeros_append _ _ hz48
  by_cases hb' : b.dropWhile (fun c => decide (c = 48)) = []
  · have hb48 : ∀ c ∈ b, c = 48 := by
      intro c hc
      rw [← hsplit] at hc
      rcases List.mem_append.mp hc with h | h
      · exact hz48 c h
      · rw [hb'] at h
        simp at h
    have hbrep : b = List.replicate 40 48 := List.eq_replicate.mpr ⟨hlen, hb48⟩
    have h0 : hexVal b = 0 := by
      rw [hval, hb']
      rfl
    rw [h0, hbrep]
    rfl
  · have hh' : (b.dropWhile (fun c => decide (c = 48))).head? ≠ some 48 := by
      intro he
      have := dropWhile_head_not (p := fun c => decide (c = 48)) b 48 he
      simp at this
    have hlow' : ∀ c ∈ b.dropWhile (fun c => decide (c = 48)),
        isLowerHexByte c = true := fun c hc =>
      hlow c (by rw [← hsplit]; exact List.mem_append_right _ hc)
    have hne0 : hexVal (b.dropWhile (fun c => decide (c = 48))) ≠ 0 := by
      have hge := hexVal_ge _ hb' hh' hlow'
      have hp : (0:Nat)
          < 16 ^ ((b.dropWhile (fun c => decide (c = 48))).length - 1) :=
        pow_pos (by omega) _
      omega
    have hds : hexDigits (hexVal (b.dropWhile (fun c => decide (c = 48))))
        = b.dropWhile (fun c => decide (c = 48)) := by
      rw [hexDigits]
      exact hexDigitsF_render _ _ hlow' hh' le_rfl
    rw [hval]
    simp only [hexRender40]
    rw [if_neg hne0, hds]
    have hzlen := congrArg List.length hsplit
    simp only [List.length_append] at hzlen
    rw [hlen] at hzlen
    have hzrep : b.takeWhile (fun c => decide (c = 48))
        = List.replicate (40 - (b.dropWhile (fun c => decide (c = 48))).length)
          48 :=
      List.eq_replicate.mpr ⟨by omega, hz48⟩
    rw [← hzrep, hsplit]

/-! ## Byte-layout plumbing for the index codec -/

theorem natToBytesBE_two (w : Nat) :
    natToBytesBE 2 w = [w / 256 % 256, w % 256] := rfl

theorem natToBytesBE_four (v : Nat) :
    natToBytesBE 4 v
      = [v / 256 / 256 / 256 % 256, v / 256 / 256 % 256, v / 256 % 256,
        v % 256] := rfl

theorem natToBytesBE_four_split (v : Nat) :
    natToBytesBE 4 v = natToBytesBE 2 (v / 65536) ++ natToBytesBE 2 (v % 65536) := by
  rw [natToBytesBE_four, natToBytesBE_two, natToBytesBE_two]
  simp only [List.cons_append, List.nil_append, List.cons.injEq, and_true]
  refine ⟨?_, ?_, ?_, ?_⟩ <;> omega

theorem drop_skip (c T : Bytes) (n a : Nat) (h : c.length = n) :
    (c ++ T).drop (n + a) = T.drop a := by
  subst h
  rw [← List.drop_drop, List.drop_left]

theorem index_entry_bytes_length (e : GitIndexEntry) :
    (index_entry_bytes e).length = 63 + e.name.length := by
  simp [index_entry_bytes, natToBytesBE_length]
  omega

theorem drop_skip' (c T : Bytes) (m a : Nat) (h : c.length + a = m) :
    (c ++ T).drop m = T.drop a := by
  subst h
  rw [← List.drop_drop, List.drop_left]

/-- Parsing one written entry out of any surrounding context recovers the
entry and the 8-aligned next offset. -/
theorem index_read_entry_at (pre rest : Bytes) (e : GitIndexEntry) (idx : Nat)
    (hpre : pre.length = idx) (hwf : IndexEntryWF e) :
    index_read_entry (pre ++ (index_entry_bytes e ++ rest)) idx
      = some (e, 8 * ((idx + 62 + e.name.length + 1 + 7) / 8)) := by
  obtain ⟨hct1, hct2, hmt1, hmt2, hdev, hino, hkind, hperm, huid, hgid, hfsz,
    hshalen, hshalow, hstage, hname0, hutf⟩ := hwf
  have hpow32 : (256:Nat) ^ 4 = 2 ^ 32 := by norm_num
  have hpow16 : (256:Nat) ^ 2 = 65536 := by norm_num
  have hmtlt : e.mode_type < 16 := by rcases hkind with h | h | h <;> omega
  have hMeq : Nat.lor (e.mode_type <<< 12) e.mode_perms
      = e.mode_type * 4096 + e.mode_perms := mode_compose _ _ (by omega)
  have hMlt : Nat.lor (e.mode_type <<< 12) e.mode_perms < 65536 := by
    rw [hMeq]; omega
  have hMdiv : Nat.lor (e.mode_type <<< 12) e.mode_perms / 65536 = 0 := by omega
  have hMmod : Nat.lor (e.mode_type <<< 12) e.mode_perms % 65536
      = Nat.lor (e.mode_type <<< 12) e.mode_perms := Nat.mod_eq_of_lt hMlt
  have hA : (if e.flag_assume_valid then (32768:Nat) else 0) = 0 ∨
      (if e.flag_assume_valid then (32768:Nat) else 0) = 32768 := by
    cases e.flag_assume_valid <;> simp
  have hNL : (if 4095 ≤ e.name.length then (4095:Nat) else e.name.length)
      < 4096 := by
    split_ifs with h <;> omega
  have hFeq : Nat.lor (Nat.lor (if e.flag_assume_valid then (32768:Nat) else 0)
        e.flag_stage) (if 4095 ≤ e.name.length then 4095 else e.name.length)
      = (if e.flag_assume_valid then (32768:Nat) else 0) + e.flag_stage
        + (if 4095 ≤ e.name.length then 4095 else e.name.length) :=
    flags_compose _ _ _ hA hstage hNL
  have hFlt : (if e.flag_assume_valid then (32768:Nat) else 0) + e.flag_stage
      + (if 4095 ≤ e.name.length then 4095 else e.name.length) < 65536 := by
    rcases hA with h | h <;> rcases hstage with h2 | h2 | h2 | h2 <;> omega
  have hextr := flags_extract _ _ _ hA hstage hNL
  have hshaval : hexVal e.sha < 256 ^ 20 := by
    have h := hexVal_lt e.sha hshalow
    rw [hshalen] at h
    rw [show (256:Nat) ^ 20 = 16 ^ 40 from by norm_num]
    exact h
  have h0ne : ¬((0:Nat) ≠ 0) := fun h => h rfl
  have havd : (decide ((if e.flag_assume_valid then (32768:Nat) else 0) ≠ 0))
      = e.flag_assume_valid := by
    cases e.flag_assume_valid <;> rfl
  have hdrop : ∀ a : Nat, (pre ++ (index_entry_bytes e ++ rest)).drop (idx + a)
      = (index_entry_bytes e ++ rest).drop a :=
    fun a => drop_skip pre _ idx a hpre
  have hfld : ∀ a b : Nat, fldAt (pre ++ (index_entry_bytes e ++ rest)) idx a b
      = bytesToNatBE (((index_entry_bytes e ++ rest).drop a).take (b - a)) := by
    intro a b
    simp only [fldAt]
    rw [hdrop]
  have f0 : fldAt (pre ++ (index_entry_bytes e ++ rest)) idx 0 4
      = e.ctime.1 := by
    rw [hfld, show (4:Nat) - 0 = 4 from rfl]
    simp only [index_entry_bytes, List.append_assoc, List.singleton_append,
      natToBytesBE_four_split (Nat.lor (e.mode_type <<< 12) e.mode_perms)]
    rw [
      List.drop_zero,
      List.take_left' (natToBytesBE_length 4 _)]
    exact bytesToNatBE_natToBytesBE 4 _ (by rw [hpow32]; exact hct1)
  have f4 : fldAt (pre ++ (index_entry_bytes e ++ rest)) idx 4 8
      = e.ctime.2 := by
    rw [hfld, show (8:Nat) - 4 = 4 from rfl]
    simp only [index_entry_bytes, List.append_assoc, List.singleton_append,
      natToBytesBE_four_split (Nat.lor (e.mode_type <<< 12) e.mode_perms)]
    rw [
      drop_skip' _ _ 4 0 (by rw [natToBytesBE_length]),
      List.drop_zero,
      List.take_left' (natToBytesBE_length 4 _)]
    exact bytesToNatBE_natToBytesBE 4 _ (by rw [hpow32]; exact hct2)
  have f8 : fldAt (pre ++ (index_entry_bytes e ++ rest)) idx 8 12
      = e.mtime.1 := by
    rw [hfld, show (12:Nat) - 8 = 4 from rfl]
    simp only [index_entry_bytes, List.append_assoc, List.singleton_append,
      natToBytesBE_four_split (Nat.lor (e.mode_type <<< 12) e.mode_perms)]
    rw [
      drop_skip' _ _ 8 4 (by rw [natToBytesBE_length]),
      drop_skip' _ _ 4 0 (by rw [natToBytesBE_length]),
      List.drop_zero,
      List.take_left' (natToBytesBE_length 4 _)]
    exact bytesToNatBE_natToBytesBE 4 _ (by rw [hpow32]; exact hmt1)
  have f12 : fldAt (pre ++ (index_entry_bytes e ++ rest)) idx 12 16
      = e.mtime.2 := by
    rw [hfld, show (16:Nat) - 12 = 4 from rfl]
    simp only [index_entry_bytes, List.append_assoc, List.singleton_append,
      natToBytesBE_four_split (Nat.lor (e.mode_type <<< 12) e.mode_perms)]
    rw [
      drop_skip' _ _ 12 8 (by rw [natToBytesBE_length]),
      drop_skip' _ _ 8 4 (by rw [natToBytesBE_length]),
      drop_skip' _ _ 4 0 (by rw [natToBytesBE_length]),
      List.drop_zero,
      List.take_left' (natToBytesBE_length 4 _)]
    exact bytesToNatBE_natToBytesBE 4 _ (by rw [hpow32]; exact hmt2)
  have f16 : fldAt (pre ++ (index_entry_bytes e ++ rest)) idx 16 20
      = e.dev := by
    rw [hfld, show (20:Nat) - 16 = 4 from rfl]
    simp only [index_entry_bytes, List.append_assoc, List.singleton_append,
      natToBytesBE_four_split (Nat.lor (e.mode_type <<< 12) e.mode_perms)]
    rw [
      drop_skip' _ _ 16 12 (by rw [natToBytesBE_length]),
      drop_skip' _ _ 12 8 (by rw [natToBytesBE_length]),
      drop_skip' _ _ 8 4 (by rw [natToBytesBE_length]),
      drop_skip' _ _ 4 0 (by rw [natToBytesBE_length]),
      List.drop_zero,
      List.take_left' (natToBytesBE_length 4 _)]
    exact bytesToNatBE_natToBytesBE 4 _ (by rw [hpow32]; exact hdev)
  have f20 : fldAt (pre ++ (index_entry_bytes e ++ rest)) idx 20 24
      = e.ino := by
    rw [hfld, show (24:Nat) - 20 = 4 from rfl]
    simp only [index_entry_bytes, List.append_assoc, List.singleton_append,
      natToBytesBE_four_split (Nat.lor (e.mode_type <<< 12) e.mode_perms)]
    rw [
      drop_skip' _ _ 20 16 (by rw [natToBytesBE_length]),
      drop_skip' _ _ 16 12 (by rw [natToBytesBE_length]),
      drop_skip' _ _ 12 8 (by rw [natToBytesBE_length]),
      drop_skip' _ _ 8 4 (by rw [natToBytesBE_length]),
      drop_skip' _ _ 4 0 (by rw [natToBytesBE_length]),
      List.drop_zero,
      List.take_left' (natToBytesBE_length 4 _)]
    exact bytesToNatBE_natToBytesBE 4 _ (by rw [hpow32]; exact hino)
  have f24 : fldAt (pre ++ (index_entry_bytes e ++ rest)) idx 24 26
      = 0 := by
    rw [hfld, show (26:Nat) - 24 = 2 from rfl]
    simp only [index_entry_bytes, List.append_assoc, List.singleton_append,
      natToBytesBE_four_split (Nat.lor (e.mode_type <<< 12) e.mode_perms)]
    rw [
      drop_skip' _ _ 24 20 (by rw [natToBytesBE_length]),
      drop_skip' _ _ 20 16 (by rw [natToBytesBE_length]),
      drop_skip' _ _ 16 12 (by rw [natToBytesBE_length]),
      drop_skip' _ _ 12 8 (by rw [natToBytesBE_length]),
      drop_skip' _ _ 8 4 (by rw [natToBytesBE_length]),
      drop_skip' _ _ 4 0 (by rw [natToBytesBE_length]),
      List.drop_zero,
      List.take_left' (natToBytesBE_length 2 _)]
    rw [hMdiv]
    rfl
  have f26 : fldAt (pre ++ (index_entry_bytes e ++ rest)) idx 26 28
      = Nat.lor (e.mode_type <<< 12) e.mode_perms := by
    rw [hfld, show (28:Nat) - 26 = 2 from rfl]
    simp only [index_entry_bytes, List.append_assoc, List.singleton_append,
      natToBytesBE_four_split (Nat.lor (e.mode_type <<< 12) e.mode_perms)]
    rw [
      drop_skip' _ _ 26 22 (by rw [natToBytesBE_length]),
      drop_skip' _ _ 22 18 (by rw [natToBytesBE_length]),
      drop_skip' _ _ 18 14 (by rw [natToBytesBE_length]),
      drop_skip' _ _ 14 10 (by rw [natToBytesBE_length]),
      drop_skip' _ _ 10 6 (by rw [natToBytesBE_length]),
      drop_skip' _ _ 6 2 (by rw [natToBytesBE_length]),
      drop_skip' _ _ 2 0 (by rw [natToBytesBE_length]),
      List.drop_zero,
      List.take_left' (natToBytesBE_length 2 _)]
    rw [hMmod]
    exact bytesToNatBE_natToBytesBE 2 _ (by rw [hpow16]; exact hMlt)
  have f28 : fldAt (pre ++ (index_entry_bytes e ++ rest)) idx 28 32
      = e.uid := by
    rw [hfld, show (32:Nat) - 28 = 4 from rfl]
    simp only [index_entry_bytes, List.append_assoc, List.singleton_append,
      natToBytesBE_four_split (Nat.lor (e.mode_type <<< 12) e.mode_perms)]
    rw [
      drop_skip' _ _ 28 24 (by rw [natToBytesBE_length]),
      drop_skip' _ _ 24 20 (by rw [natToBytesBE_length]),
      drop_skip' _ _ 20 16 (by rw [natToBytesBE_length]),
      drop_skip' _ _ 16 12 (by rw [natToBytesBE_length]),
      drop_skip' _ _ 12 8 (by rw [natToBytesBE_length]),
      drop_skip' _ _ 8 4 (by rw [natToBytesBE_length]),
      drop_skip' _ _ 4 2 (by rw [natToBytesBE_length]),
      drop_skip' _ _ 2 0 (by rw [natToBytesBE_length]),
      List.drop_zero,
      List.take_left' (natToBytesBE_length 4 _)]
    exact bytesToNatBE_natToBytesBE 4 _ (by rw [hpow32]; exact huid)
  have f32 : fldAt (pre ++ (index_entry_bytes e ++ rest)) idx 32 36
      = e.gid := by
    rw [hfld, show (36:Nat) - 32 = 4 from rfl]
    simp only [index_entry_bytes, List.append_assoc, List.singleton_append,
      natToBytesBE_four_split (Nat.lor (e.mode_type <<< 12) e.mode_perms)]
    rw [
      drop_skip' _ _ 32 28 (by rw [natToBytesBE_length]),
      drop_skip' _ _ 28 24 (by rw [natToBytesBE_length]),
      drop_skip' _ _ 24 20 (by rw [natToBytesBE_length]),
      drop_skip' _ _ 20 16 (by rw [natToBytesBE_length]),
      drop_skip' _ _ 16 12 (by rw [natToBytesBE_length]),
      drop_skip' _ _ 12 8 (by rw [natToBytesBE_length]),
      drop_skip' _ _ 8 6 (by rw [natToBytesBE_length]),
      drop_skip' _ _ 6 4 (by rw [natToBytesBE_length]),
      drop_skip' _ _ 4 0 (by rw [natToBytesBE_length]),
      List.drop_zero,
      List.take_left' (natToBytesBE_length 4 _)]
    exact bytesToNatBE_natToBytesBE 4 _ (by rw [hpow32]; exact hgid)
  have f36 : fldAt (pre ++ (index_entry_bytes e ++ rest)) idx 36 40
      = e.fsize := by
    rw [hfld, show (40:Nat) - 36 = 4 from rfl]
    simp only [index_entry_bytes, List.append_assoc, List.singleton_append,
      natToBytesBE_four_split (Nat.lor (e.mode_type <<< 12) e.mode_perms)]
    rw [
      drop_skip' _ _ 36 32 (by rw [natToBytesBE_length]),
      drop_skip' _ _ 32 28 (by rw [natToBytesBE_length]),
      drop_skip' _ _ 28 24 (by rw [natToBytesBE_length]),
      drop_skip' _ _ 24 20 (by rw [natToBytesBE_length]),
      drop_skip' _ _ 20 16 (by rw [natToBytesBE_length]),
      drop_skip' _ _ 16 12 (by rw [natToBytesBE_length]),
      drop_skip' _ _ 12 10 (by rw [natToBytesBE_length]),
      drop_skip' _ _ 10 8 (by rw [natToBytesBE_length]),
      drop_skip' _ _ 8 4 (by rw [natToBytesBE_length]),
      drop_skip' _ _ 4 0 (by rw [natToBytesBE_length]),
      List.drop_zero,
      List.take_left' (natToBytesBE_length 4 _)]
    exact bytesToNatBE_natToBytesBE 4 _ (by rw [hpow32]; exact hfsz)
  have f40 : fldAt (pre ++ (index_entry_bytes e ++ rest)) idx 40 60
      = hexVal e.sha := by
    rw [hfld, show (60:Nat) - 40 = 20 from rfl]
    simp only [index_entry_bytes, List.append_assoc, List.singleton_append,
      natToBytesBE_four_split (Nat.lor (e.mode_type <<< 12) e.mode_perms)]
    rw [
      drop_skip' _ _ 40 36 (by rw [natToBytesBE_length]),
      drop_skip' _ _ 36 32 (by rw [natToBytesBE_length]),
      drop_skip' _ _ 32 28 (by rw [natToBytesBE_length]),
      drop_skip' _ _ 28 24 (by rw [natToBytesBE_length]),
      drop_skip' _ _ 24 20 (by rw [natToBytesBE_length]),
      drop_skip' _ _ 20 16 (by rw [natToBytesBE_length]),
      drop_skip' _ _ 16 14 (by rw [natToBytesBE_length]),
      drop_skip' _ _ 14 12 (by rw [natToBytesBE_length]),
      drop_skip' _ _ 12 8 (by rw [natToBytesBE_length]),
      drop_skip' _ _ 8 4 (by rw [natToBytesBE_length]),
      drop_skip' _ _ 4 0 (by rw [natToBytesBE_length]),
      List.drop_zero,
      List.take_left' (natToBytesBE_length 20 _)]
    exact bytesToNatBE_natToBytesBE 20 _ hshaval
  have f60 : fldAt (pre ++ (index_entry_bytes e ++ rest)) idx 60 62
      = Nat.lor (Nat.lor (if e.flag_assume_valid then (32768:Nat) else 0)
        e.flag_stage) (if 4095 ≤ e.name.length then 4095 else e.name.length) := by
    rw [hfld, show (62:Nat) - 60 = 2 from rfl]
    simp only [index_entry_bytes, List.append_assoc, List.singleton_append,
      natToBytesBE_four_split (Nat.lor (e.mode_type <<< 12) e.mode_perms)]
    rw [
      drop_skip' _ _ 60 56 (by rw [natToBytesBE_length]),
      drop_skip' _ _ 56 52 (by rw [natToBytesBE_length]),
      drop_skip' _ _ 52 48 (by rw [natToBytesBE_length]),
      drop_skip' _ _ 48 44 (by rw [natToBytesBE_length]),
      drop_skip' _ _ 44 40 (by rw [natToBytesBE_length]),
      drop_skip' _ _ 40 36 (by rw [natToBytesBE_length]),
      drop_skip' _ _ 36 34 (by rw [natToBytesBE_length]),
      drop_skip' _ _ 34 32 (by rw [natToBytesBE_length]),
      drop_skip' _ _ 32 28 (by rw [natToBytesBE_length]),
      drop_skip' _ _ 28 24 (by rw [natToBytesBE_length]),
      drop_skip' _ _ 24 20 (by rw [natToBytesBE_length]),
      drop_skip' _ _ 20 0 (by rw [natToBytesBE_length]),
      List.drop_zero,
      List.take_left' (natToBytesBE_length 2 _)]
    exact bytesToNatBE_natToBytesBE 2 _ (by rw [hFeq]; rw [hpow16]; exact hFlt)
  have hdrop62 : (pre ++ (index_entry_bytes e ++ rest)).drop (idx + 62)
      = e.name ++ (0 :: rest) := by
    rw [hdrop]
    simp only [index_entry_bytes, List.append_assoc, List.singleton_append,
      natToBytesBE_four_split (Nat.lor (e.mode_type <<< 12) e.mode_perms)]
    rw [
      drop_skip' _ _ 62 58 (by rw [natToBytesBE_length]),
      drop_skip' _ _ 58 54 (by rw [natToBytesBE_length]),
      drop_skip' _ _ 54 50 (by rw [natToBytesBE_length]),
      drop_skip' _ _ 50 46 (by rw [natToBytesBE_length]),
      drop_skip' _ _ 46 42 (by rw [natToBytesBE_length]),
      drop_skip' _ _ 42 38 (by rw [natToBytesBE_length]),
      drop_skip' _ _ 38 36 (by rw [natToBytesBE_length]),
      drop_skip' _ _ 36 34 (by rw [natToBytesBE_length]),
      drop_skip' _ _ 34 30 (by rw [natToBytesBE_length]),
      drop_skip' _ _ 30 26 (by rw [natToBytesBE_length]),
      drop_skip' _ _ 26 22 (by rw [natToBytesBE_length]),
      drop_skip' _ _ 22 2 (by rw [natToBytesBE_length]),
      drop_skip' _ _ 2 0 (by rw [natToBytesBE_length]),
      List.drop_zero]
  have hget : (pre ++ (index_entry_bytes e ++ rest))[idx + 62 + e.name.length]?
      = some 0 := by
    rw [← List.getElem?_drop, hdrop62,
      List.getElem?_append_right le_rfl, Nat.sub_self]
    simp
  have htake : ((pre ++ (index_entry_bytes e ++ rest)).drop (idx + 62)).take
      e.name.length = e.name := by
    rw [hdrop62]
    exact List.take_left' rfl
  simp only [index_read_entry]
  rw [f24, if_neg h0ne, f26, hMeq, (mode_extract _ _ hmtlt hperm).1,
    (mode_extract _ _ hmtlt hperm).2, if_pos hkind, f60, hFeq,
    hextr.2.1, if_neg h0ne, hextr.2.2.2, hextr.1, havd, hextr.2.2.1,
    f0, f4, f8, f12, f16, f20, f28, f32, f36, f40,
    hexRender40_hexVal e.sha hshalen hshalow]
  by_cases hsent : 4095 ≤ e.name.length
  · have hd4157 : (pre ++ (index_entry_bytes e ++ rest)).drop
        (idx + 62 + 4095) = e.name.drop 4095 ++ (0 :: rest) := by
      rw [show idx + 62 + 4095 = idx + 4157 from by omega, hdrop,
        show (4157:Nat) = 62 + 4095 from rfl, ← List.drop_drop]
      have hd62' : (index_entry_bytes e ++ rest).drop 62
          = e.name ++ (0 :: rest) := by
        have := hdrop62
        rw [hdrop] at this
        exact this
      rw [hd62']
      exact List.drop_append_of_le_length hsent
    have hfind : ((pre ++ (index_entry_bytes e ++ rest)).drop
          (idx + 62 + 4095)).findIdx? (· = 0)
        = some (e.name.length - 4095) := by
      rw [hd4157,
        findIdx?_append_left_none
          (findIdx?_eq_byte_none
            (fun hmem => hname0 (List.mem_of_mem_drop hmem))),
        List.findIdx?_cons]
      simp [List.length_drop]
    rw [if_pos hsent]
    rw [if_neg (show ¬((4095:Nat) < 4095) from by omega)]
    simp only [hfind]
    rw [show 4095 + (e.name.length - 4095) = e.name.length from by omega,
      htake,
      show idx + 62 + 4095 + (e.name.length - 4095) + 1
        = idx + 62 + e.name.length + 1 from by omega,
      if_pos hutf]
  · rw [if_neg hsent]
    rw [if_pos (show e.name.length < 4095 from by omega)]
    rw [hget, if_pos rfl]
    simp only [htake]
    rw [if_pos hutf]

/-- Reading back `count` written entries recovers the entry list, for any
prefix whose length is the (8-aligned) starting offset. -/
theorem index_read_entries_at : ∀ (es : List GitIndexEntry) (pre : Bytes)
    (idx : Nat), pre.length = idx → (∀ x ∈ es, IndexEntryWF x) →
    index_read_entries (pre ++ index_write_entries es idx) es.length idx
      = some es := by
  intro es
  induction es with
  | nil =>
    intro pre idx hpre hwf
    rfl
  | cons e rest ih =>
    intro pre idx hpre hwf
    simp only [index_write_entries, List.length_cons, index_read_entries]
    rw [List.append_assoc (index_entry_bytes e)]
    simp only [index_read_entry_at pre _ e idx hpre (hwf e (by simp))]
    have hnext : 8 * ((idx + 62 + e.name.length + 1 + 7) / 8)
        = (idx + 62 + e.name.length + 1)
          + (if (idx + 62 + e.name.length + 1) % 8 ≠ 0 then
              8 - (idx + 62 + e.name.length + 1) % 8 else 0) := by
      split_ifs with h <;> omega
    have hassoc : pre ++ (index_entry_bytes e
          ++ (List.replicate (if (idx + 62 + e.name.length + 1) % 8 ≠ 0 then
                8 - (idx + 62 + e.name.length + 1) % 8 else 0) 0
            ++ index_write_entries rest ((idx + 62 + e.name.length + 1)
              + (if (idx + 62 + e.name.length + 1) % 8 ≠ 0 then
                  8 - (idx + 62 + e.name.length + 1) % 8 else 0))))
        = (pre ++ index_entry_bytes e
            ++ List.replicate (if (idx + 62 + e.name.length + 1) % 8 ≠ 0 then
                8 - (idx + 62 + e.name.length + 1) % 8 else 0) 0)
          ++ index_write_entries rest ((idx + 62 + e.name.length + 1)
            + (if (idx + 62 + e.name.length + 1) % 8 ≠ 0 then
                8 - (idx + 62 + e.name.length + 1) % 8 else 0)) := by
      simp [List.append_assoc]
    simp only [hnext, hassoc]
    rw [ih _ _ (by
        simp only [List.length_append, index_entry_bytes_length,
          List.length_replicate]
        omega)
      (fun x hx => hwf x (by simp [hx]))]
    rfl

/-- **C4** (amended: digests must be 40 *lower-case* hex chars, as
`index_read` renders them): the staging index binary codec round-trips —
for every in-range index, `index_read (index_write i) = some i`. -/
theorem claim_C4_index_roundtrip (i : GitIndex) (h : IndexWF i) :
    index_read (index_write i) = some i := by
  obtain ⟨hv, hc, he⟩ := h
  have hraw : index_write i
      = s2b ("DIRC") ++ (natToBytesBE 4 i.version
        ++ (natToBytesBE 4 i.entries.length
          ++ index_write_entries i.entries 0)) := by
    simp [index_write, List.append_assoc]
  have hlen4 : (s2b ("DIRC")).length = 4 := by decide
  have htake4 : (index_write i).take 4 = s2b ("DIRC") := by
    rw [hraw]
    exact List.take_left' hlen4
  have hvfld : bytesToNatBE (((index_write i).drop 4).take 4) = i.version := by
    rw [hraw, List.drop_left' hlen4, List.take_left' (natToBytesBE_length 4 _)]
    exact bytesToNatBE_natToBytesBE 4 _ (by rw [hv]; norm_num)
  have hcfld : bytesToNatBE (((index_write i).drop 8).take 4)
      = i.entries.length := by
    rw [hraw, drop_skip' _ _ 8 4 (by rw [hlen4]),
      List.drop_left' (natToBytesBE_length 4 _),
      List.take_left' (natToBytesBE_length 4 _)]
    exact bytesToNatBE_natToBytesBE 4 _
      (by rw [show (256:Nat) ^ 4 = 2 ^ 32 from by norm_num]; exact hc)
  have hdrop12 : (index_write i).drop 12 = index_write_entries i.entries 0 := by
    rw [hraw, drop_skip' _ _ 12 8 (by rw [hlen4]),
      drop_skip' _ _ 8 4 (by rw [natToBytesBE_length]),
      List.drop_left' (natToBytesBE_length 4 _)]
  have hentries : index_read_entries ((index_write i).drop 12)
      i.entries.length 0 = some i.entries := by
    rw [hdrop12, show index_write_entries i.entries 0
        = [] ++ index_write_entries i.entries 0 from (List.nil_append _).symm]
    exact index_read_entries_at i.entries [] 0 rfl he
  simp only [index_read]
  rw [htake4, if_pos rfl, hvfld, if_pos hv, hcfld, hentries]
  rfl

/-- Witness: the concrete two-entry index `wfIndex` is well-formed and
round-trips through `index_write`/`index_read`. -/
theorem claim_C4_index_roundtrip_witness :
    IndexWF wfIndex ∧ index_read (index_write wfIndex) = some wfIndex :=
  ⟨by decide, claim_C4_index_roundtrip wfIndex (by decide)⟩

set_option maxRecDepth 8192 in
/-- **C4 counterexample**: an index whose digest is spelled with the
permitted hex characters but in upper case (`"...FAB"`) satisfies every
range condition of the original claim, yet does not round-trip —
`index_read` re-renders the digest in lower case. -/
theorem claim_C4_counterexample :
    (∀ e ∈ upperIndex.entries, e.sha.length = 40
      ∧ ∀ c ∈ e.sha, isHexByte c = true)
    ∧ index_read (index_write upperIndex) ≠ some upperIndex := by
  decide

/-! ## Claims C9, C10 and C1 -/

/-- **C9** — refuted (code bug): `add` calls `rm` with the *raw* argument
paths but expands directory arguments into their files itself, so
re-adding a directory whose files are already staged duplicates their
entries.  Here the index stages exactly `dir/b.txt` (names unique), and
`add(["dir"])` produces an index carrying `dir/b.txt` twice. -/
theorem claim_C9_add_duplicates_staged_path :
    (([c9Entry].map (fun e => e.name)).Nodup)
    ∧ add_model c9Worktree [c9Entry] [s2b ("dir")] = some [c9Entry, c9Entry]
    ∧ ¬ (([c9Entry, c9Entry].map (fun e => e.name)).Nodup) := by
  decide

/-- **C10**: on an empty staging index, `tree_from_index` performs exactly
one write — the root tree at path `""`, with no leaves — whose serialized
payload is the empty byte string, and returns that tree's digest (not
`None`). -/
theorem claim_C10_empty_index_tree (h : Bytes → Nat) (store : Store) :
    (tree_from_index h ⟨2, []⟩ store).2.2
      = [([], [], h (objectFrame (s2b ("tree")) (tree_serialize [])), store)]
    ∧ (tree_from_index h ⟨2, []⟩ store).1
      = some (h (objectFrame (s2b ("tree")) (tree_serialize [])))
    ∧ tree_serialize [] = [] :=
  ⟨rfl, rfl, rfl⟩

theorem object_write_append (h : Bytes → Nat) (o : GitObject) (store : Store)
    (hmiss : store.lookup (h (objectFrame o.fmt o.serialize)) = none) :
    object_write h o store
      = (h (objectFrame o.fmt o.serialize),
         store ++ [(h (objectFrame o.fmt o.serialize),
           objectFrame o.fmt o.serialize)]) := by
  simp only [object_write, hmiss]

/-- **C1**: on the index staging exactly `a.txt`, `dir/b.txt` and
`dir/sub/c.txt` (with a collision-free hash on the three distinct tree
frames), `tree_from_index` writes exactly three trees, deepest directory
first (`dir/sub`, then `dir`, then the root), each child's digest already
present in the store snapshot taken when its parent is written; the root
tree's leaves are exactly the `a.txt` blob entry and the `dir` subtree
entry, left in that order by the serializer's sort, where `dir` compares
by the key `"dir/"`. -/
theorem claim_C1_tree_builder (h : Bytes → Nat)
    (h1 : h (c1DirFrame h) ≠ h c1SubFrame)
    (h2 : h (c1RootFrame h) ≠ h c1SubFrame)
    (h3 : h (c1RootFrame h) ≠ h (c1DirFrame h)) :
    (tree_from_index h c1Index []).2.2
      = [(s2b ("dir/sub"), [leafOfGroupItem (.file c1e3)], h c1SubFrame, []),
         (s2b ("dir"),
           [leafOfGroupItem (.file c1e2),
             ⟨s2b ("040000"), s2b ("sub"), h c1SubFrame⟩],
           h (c1DirFrame h), [(h c1SubFrame, c1SubFrame)]),
         ([],
           [leafOfGroupItem (.file c1e1),
             ⟨s2b ("040000"), s2b ("dir"), h (c1DirFrame h)⟩],
           h (c1RootFrame h),
           [(h c1SubFrame, c1SubFrame), (h (c1DirFrame h), c1DirFrame h)])]
    ∧ (tree_from_index h c1Index []).1 = some (h (c1RootFrame h))
    ∧ List.insertionSort leafLe
        [leafOfGroupItem (.file c1e1),
          ⟨s2b ("040000"), s2b ("dir"), h (c1DirFrame h)⟩]
      = [leafOfGroupItem (.file c1e1),
          ⟨s2b ("040000"), s2b ("dir"), h (c1DirFrame h)⟩]
    ∧ tree_leaf_sort_key ⟨s2b ("040000"), s2b ("dir"), h (c1DirFrame h)⟩
      = s2b ("dir") ++ [47] := by
  have hb1 : (h (c1DirFrame h) == h c1SubFrame) = false :=
    beq_eq_false_iff_ne.mpr h1
  have hb2 : (h (c1RootFrame h) == h c1SubFrame) = false :=
    beq_eq_false_iff_ne.mpr h2
  have hb3 : (h (c1RootFrame h) == h (c1DirFrame h)) = false :=
    beq_eq_false_iff_ne.mpr h3
  have hm2 : List.lookup (h (c1DirFrame h)) [(h c1SubFrame, c1SubFrame)]
      = none := by
    simp only [List.lookup, hb1]
  have hm3 : List.lookup (h (c1RootFrame h))
      [(h c1SubFrame, c1SubFrame), (h (c1DirFrame h), c1DirFrame h)]
      = none := by
    simp only [List.lookup, hb2, hb3]
  have hw2 : object_write h
      (GitObject.tree [leafOfGroupItem (.file c1e2),
        leafOfGroupItem (.sub (s2b ("sub")) (h c1SubFrame))])
      [(h c1SubFrame, c1SubFrame)]
      = (h (c1DirFrame h),
         [(h c1SubFrame, c1SubFrame), (h (c1DirFrame h), c1DirFrame h)]) := by
    rw [object_write_append h
      (GitObject.tree [leafOfGroupItem (.file c1e2),
        leafOfGroupItem (.sub (s2b ("sub")) (h c1SubFrame))])
      [(h c1SubFrame, c1SubFrame)] hm2]
    rfl
  have hw3 : object_write h
      (GitObject.tree [leafOfGroupItem (.file c1e1),
        leafOfGroupItem (.sub (s2b ("dir")) (h (c1DirFrame h)))])
      [(h c1SubFrame, c1SubFrame), (h (c1DirFrame h), c1DirFrame h)]
      = (h (c1RootFrame h),
         [(h c1SubFrame, c1SubFrame), (h (c1DirFrame h), c1DirFrame h),
          (h (c1RootFrame h), c1RootFrame h)]) := by
    rw [object_write_append h
      (GitObject.tree [leafOfGroupItem (.file c1e1),
        leafOfGroupItem (.sub (s2b ("dir")) (h (c1DirFrame h)))])
      [(h c1SubFrame, c1SubFrame), (h (c1DirFrame h), c1DirFrame h)] hm3]
    rfl
  have key : tree_from_index h c1Index []
      = (some (h (c1RootFrame h)),
         [(h c1SubFrame, c1SubFrame), (h (c1DirFrame h), c1DirFrame h),
          (h (c1RootFrame h), c1RootFrame h)],
         [(s2b ("dir/sub"), [leafOfGroupItem (.file c1e3)], h c1SubFrame, []),
          (s2b ("dir"),
            [leafOfGroupItem (.file c1e2),
              leafOfGroupItem (.sub (s2b ("sub")) (h c1SubFrame))],
            h (c1DirFrame h), [(h c1SubFrame, c1SubFrame)]),
          (([] : Bytes),
            [leafOfGroupItem (.file c1e1),
              leafOfGroupItem (.sub (s2b ("dir")) (h (c1DirFrame h)))],
            h (c1RootFrame h),
            [(h c1SubFrame, c1SubFrame),
             (h (c1DirFrame h), c1DirFrame h)])]) := by
    show tree_from_index_go h [([] : Bytes)]
        (contentsAppend
          [(([] : Bytes), [GroupItem.file c1e1]),
           (s2b ("dir"),
             [GroupItem.file c1e2, GroupItem.sub (s2b ("sub")) (h c1SubFrame)]),
           (s2b ("dir/sub"), [GroupItem.file c1e3])]
          []
          (GroupItem.sub (s2b ("dir"))
            (object_write h
              (GitObject.tree [leafOfGroupItem (.file c1e2),
                leafOfGroupItem (.sub (s2b ("sub")) (h c1SubFrame))])
              [(h c1SubFrame, c1SubFrame)]).1))
        (object_write h
          (GitObject.tree [leafOfGroupItem (.file c1e2),
            leafOfGroupItem (.sub (s2b ("sub")) (h c1SubFrame))])
          [(h c1SubFrame, c1SubFrame)]).2
        (some (object_write h
          (GitObject.tree [leafOfGroupItem (.file c1e2),
            leafOfGroupItem (.sub (s2b ("sub")) (h c1SubFrame))])
          [(h c1SubFrame, c1SubFrame)]).1)
        [(s2b ("dir/sub"), [leafOfGroupItem (.file c1e3)], h c1SubFrame, []),
         (s2b ("dir"),
           [leafOfGroupItem (.file c1e2),
             leafOfGroupItem (.sub (s2b ("sub")) (h c1SubFrame))],
           (object_write h
             (GitObject.tree [leafOfGroupItem (.file c1e2),
               leafOfGroupItem (.sub (s2b ("sub")) (h c1SubFrame))])
             [(h c1SubFrame, c1SubFrame)]).1,
           [(h c1SubFrame, c1SubFrame)])]
      = _
    rw [hw2]
    show tree_from_index_go h ([] : List Bytes)
        (contentsAppend
          [(([] : Bytes),
             [GroupItem.file c1e1,
              GroupItem.sub (s2b ("dir")) (h (c1DirFrame h))]),
           (s2b ("dir"),
             [GroupItem.file c1e2, GroupItem.sub (s2b ("sub")) (h c1SubFrame)]),
           (s2b ("dir/sub"), [GroupItem.file c1e3])]
          []
          (GroupItem.sub ([] : Bytes)
            (object_write h
              (GitObject.tree [leafOfGroupItem (.file c1e1),
                leafOfGroupItem (.sub (s2b ("dir")) (h (c1DirFrame h)))])
              [(h c1SubFrame, c1SubFrame),
               (h (c1DirFrame h), c1DirFrame h)]).1))
        (object_write h
          (GitObject.tree [leafOfGroupItem (.file c1e1),
            leafOfGroupItem (.sub (s2b ("dir")) (h (c1DirFrame h)))])
          [(h c1SubFrame, c1SubFrame), (h (c1DirFrame h), c1DirFrame h)]).2
        (some (object_write h
          (GitObject.tree [leafOfGroupItem (.file c1e1),
            leafOfGroupItem (.sub (s2b ("dir")) (h (c1DirFrame h)))])
          [(h c1SubFrame, c1SubFrame), (h (c1DirFrame h), c1DirFrame h)]).1)
        [(s2b ("dir/sub"), [leafOfGroupItem (.file c1e3)], h c1SubFrame, []),
         (s2b ("dir"),
           [leafOfGroupItem (.file c1e2),
             leafOfGroupItem (.sub (s2b ("sub")) (h c1SubFrame))],
           h (c1DirFrame h), [(h c1SubFrame, c1SubFrame)]),
         (([] : Bytes),
           [leafOfGroupItem (.file c1e1),
             leafOfGroupItem (.sub (s2b ("dir")) (h (c1DirFrame h)))],
           (object_write h
             (GitObject.tree [leafOfGroupItem (.file c1e1),
               leafOfGroupItem (.sub (s2b ("dir")) (h (c1DirFrame h)))])
             [(h c1SubFrame, c1SubFrame),
              (h (c1DirFrame h), c1DirFrame h)]).1,
           [(h c1SubFrame, c1SubFrame), (h (c1DirFrame h), c1DirFrame h)])]
      = _
    rw [hw3]
    rfl
  refine ⟨?_, ?_, rfl, rfl⟩
  · rw [key]
    rfl
  · rw [key]

set_option maxRecDepth 8192 in
/-- Witness: with `h := bytesToNatBE` the three frames hash pairwise
differently, and the builder returns the root tree's digest. -/
theorem claim_C1_tree_builder_witness :
    (bytesToNatBE (c1DirFrame bytesToNatBE) ≠ bytesToNatBE c1SubFrame
      ∧ bytesToNatBE (c1RootFrame bytesToNatBE) ≠ bytesToNatBE c1SubFrame
      ∧ bytesToNatBE (c1RootFrame bytesToNatBE)
          ≠ bytesToNatBE (c1DirFrame bytesToNatBE))
    ∧ (tree_from_index bytesToNatBE c1Index []).1
        = some (bytesToNatBE (c1RootFrame bytesToNatBE)) :=
  ⟨⟨by decide, by decide, by decide⟩,
    (claim_C1_tree_builder bytesToNatBE (by decide) (by decide)
      (by decide)).2.1⟩
